import Mathlib

/-!
# Verification of the babydb LSM storage engine

Shallow embedding of the babydb key-value storage engine (an LSM-tree
engine: memtable, SSTs, merging/level/seqnum iterators, keyspace-interval
algebra, atomic root pointer) together with proofs and refutations of the
specification claims about it.

Machine integers: the Rust code uses `usize` indices and lengths; all of
the index arithmetic in the embedded code stays far below `2^64`, so they
are modelled as `Nat`.  Rust panics (out-of-bounds indexing, `unwrap` on
`None`) are modelled by `Option`/`Except` results where they are reachable.
-/

set_option autoImplicit false

namespace BabyDb

/-! ## Keyspace-interval sets (src/db/keyspace_subset.rs)

A `KeyspaceSubset` represents a union of closed intervals over the
keyspace as an ordered list of pairwise disjoint `(lo, hi)` ranges. -/

structure KeyspaceSubset (K : Type) where
  ranges : List (K × K)
deriving Repr, DecidableEq

namespace KeyspaceSubset

variable {K : Type} [LinearOrder K]

def new : KeyspaceSubset K := ⟨[]⟩

def new_from_singleton (interval : K × K) : KeyspaceSubset K := ⟨[interval]⟩

/-- The loop of `KeyspaceSubset::intersects`, translated verbatim: note that
the source reads `self.ranges[my_idx]` for the left interval and
`other.ranges[my_idx]` (not `other.ranges[other_idx]`) for the right one.
A `none` result models a Rust index-out-of-bounds panic. -/
def intersectsLoop (s o : List (K × K)) (myIdx otherIdx : Nat) : Option Bool :=
  if myIdx < s.length ∧ otherIdx < o.length then
    match s.get? myIdx, o.get? myIdx with
    | some (a, b), some (c, d) =>
      if a ≤ d ∧ c ≤ b then some true
      else if a < c then intersectsLoop s o (myIdx + 1) otherIdx
      else intersectsLoop s o myIdx (otherIdx + 1)
    | _, _ => none
  else
    some false
termination_by (s.length - myIdx) + (o.length - otherIdx)
decreasing_by
  · omega
  · omega

def intersects (self other : KeyspaceSubset K) : Option Bool :=
  intersectsLoop self.ranges other.ranges 0 0

/-- What the spec says `intersects` computes: some interval of one overlaps
some interval of the other, i.e. there are `(a,b)` in `self` and `(c,d)` in
`other` with `a ≤ d` and `c ≤ b`. -/
def overlapsSpec (self other : KeyspaceSubset K) : Bool :=
  self.ranges.any fun ab =>
    other.ranges.any fun cd => decide (ab.1 ≤ cd.2) && decide (cd.1 ≤ ab.2)

/-- The invariant the spec states for stored ranges: `lo ≤ hi` for each
range, and the ranges are ordered and pairwise disjoint. -/
def WellFormed (s : KeyspaceSubset K) : Prop :=
  (∀ r ∈ s.ranges, r.1 ≤ r.2) ∧ s.ranges.Chain' (fun r₁ r₂ => r₁.2 < r₂.1)

instance (s : KeyspaceSubset K) : Decidable s.WellFormed :=
  inferInstanceAs (Decidable ((∀ r ∈ s.ranges, r.1 ≤ r.2) ∧
    s.ranges.Chain' (fun r₁ r₂ : K × K => r₁.2 < r₂.1)))

/-- The four-way merge state of `KeyspaceSubset::union`. -/
inductive MergeState (K : Type) where
  | NoNo : MergeState K
  | YesNo : K → MergeState K
  | NoYes : K → MergeState K
  | YesYes : K → MergeState K
deriving Repr, DecidableEq

open MergeState in
/-- Rank used only to justify termination of the union sweep: transitions
that do not advance an index strictly lower the rank. -/
def MergeState.rank : MergeState K → Nat
  | NoNo => 2
  | YesNo _ => 1
  | NoYes _ => 1
  | YesYes _ => 0

/-- The main loop of `KeyspaceSubset::union`: sweeps both ordered range
lists, tracking whether the current position is inside a range of either
side. -/
def unionLoop (s o : List (K × K)) (myIdx otherIdx : Nat)
    (state : MergeState K) (result : List (K × K)) :
    Option (List (K × K) × Nat × Nat × MergeState K) :=
  if myIdx < s.length ∧ otherIdx < o.length then
    match s.get? myIdx, o.get? otherIdx with
    | some (a, b), some (c, d) =>
      match state with
      | .NoNo =>
        if a < c then unionLoop s o myIdx otherIdx (.YesNo a) result
        else unionLoop s o myIdx otherIdx (.NoYes c) result
      | .YesNo start =>
        if c ≤ b then unionLoop s o myIdx otherIdx (.YesYes start) result
        else unionLoop s o (myIdx + 1) otherIdx .NoNo (result ++ [(start, b)])
      | .NoYes start =>
        if a ≤ d then unionLoop s o myIdx otherIdx (.YesYes start) result
        else unionLoop s o myIdx (otherIdx + 1) .NoNo (result ++ [(start, d)])
      | .YesYes start =>
        if b < d then unionLoop s o (myIdx + 1) otherIdx (.NoYes start) result
        else unionLoop s o myIdx (otherIdx + 1) (.YesNo start) result
    | _, _ => none
  else
    some (result, myIdx, otherIdx, state)
termination_by ((s.length - myIdx) + (o.length - otherIdx)) * 4 + state.rank
decreasing_by
  · simp only [MergeState.rank]; omega
  · simp only [MergeState.rank]; omega
  · simp only [MergeState.rank]; omega
  · simp only [MergeState.rank]; omega
  · simp only [MergeState.rank]; omega
  · simp only [MergeState.rank]; omega
  · simp only [MergeState.rank]; omega
  · simp only [MergeState.rank]; omega

/-- `KeyspaceSubset::union`: runs the sweep loop, then flushes the final
merge state and appends whichever input has ranges left over.  A `none`
result models a panic (`unreachable!()` for a final `YesYes` state, or an
out-of-bounds index). -/
def union (self other : KeyspaceSubset K) : Option (KeyspaceSubset K) := do
  let (result, myIdx, otherIdx, state) ←
    unionLoop self.ranges other.ranges 0 0 .NoNo []
  let (result, myIdx, otherIdx) ←
    match state with
    | .YesNo start =>
      match self.ranges.get? myIdx with
      | some (_, currentEnd) => some (result ++ [(start, currentEnd)], myIdx + 1, otherIdx)
      | none => none
    | .NoYes start =>
      match other.ranges.get? otherIdx with
      | some (_, currentEnd) => some (result ++ [(start, currentEnd)], myIdx, otherIdx + 1)
      | none => none
    | .NoNo => some (result, myIdx, otherIdx)
    | .YesYes _ => none
  some ⟨result ++ self.ranges.drop myIdx ++ other.ranges.drop otherIdx⟩

end KeyspaceSubset

/-! ## The atomic root pointer (src/root/mod.rs)

`Root::write` is modelled by the trace of filesystem operations it
performs, in order.  The source opens the temporary file with
`truncate(true).create(true)` (no separate unlink), writes the serialized
descriptor, calls `flush()` (a userspace buffer flush on `std::fs::File`;
the `fsync` call and the `fsync_dir` call are commented out in the source),
and then renames the temporary file onto `ROOT`. -/

inductive FsEvent where
  | createTruncate (path : String)
  | writeAll (path : String) (bytes : List Nat)
  | flush (path : String)
  | sync (path : String)
  | rename (src dst : String)
  | unlink (path : String)
deriving Repr, DecidableEq

def FsEvent.isSync : FsEvent → Bool
  | .sync _ => true
  | _ => false

def FsEvent.isUnlink : FsEvent → Bool
  | .unlink _ => true
  | _ => false

def rootTmpPath : String := "ROOT_TMP"

def rootPath : String := "ROOT"

/-- The filesystem trace of `Root::write(t)` where `encoded` is the
serialized descriptor. -/
def rootWriteTrace (encoded : List Nat) : List FsEvent :=
  [.createTruncate rootTmpPath,
   .writeAll rootTmpPath encoded,
   .flush rootTmpPath,
   .rename rootTmpPath rootPath]

/-- The sequence of steps the spec prescribes for `Root::write`:
unlink `TMP_ROOT` if present, create it, write the descriptor, sync, and
only then rename. -/
def rootWriteSpecTrace (encoded : List Nat) : List FsEvent :=
  [.unlink rootTmpPath,
   .createTruncate rootTmpPath,
   .writeAll rootTmpPath encoded,
   .sync rootTmpPath,
   .rename rootTmpPath rootPath]

/-! ## The cursor protocol over a materialized vector
(`VecIter` in src/memtable/mod.rs; the SST reader's `Block` in
src/sst/reader.rs has the same cursor fields `data`/`idx` and
operation bodies, and shares this model)

`VecIter` holds the vector `contents` plus an index `idx`; the cursor sits
between entries `idx - 1` and `idx`.  We represent `(contents, idx)` as the
zipper `(before, after)` with `before = reverse contents[..idx]` and
`after = contents[idx..]`, so `idx = before.length`. -/

structure VecIter (α : Type) where
  before : List α
  after : List α
deriving Repr, DecidableEq

namespace VecIter

variable {α : Type}

def new (contents : List α) : VecIter α := ⟨[], contents⟩

def contents (v : VecIter α) : List α := v.before.reverse ++ v.after

def idx (v : VecIter α) : Nat := v.before.length

/-- `VecIter::next`: return the entry just to the right and move over it. -/
def next (v : VecIter α) : Option α × VecIter α :=
  match v.after with
  | [] => (none, v)
  | a :: rest => (some a, ⟨a :: v.before, rest⟩)

/-- `VecIter::peek`: the entry just to the right, without moving. -/
def peek (v : VecIter α) : Option α := v.after.head?

/-- `VecIter::prev`: return the entry just to the left and move over it. -/
def prev (v : VecIter α) : Option α × VecIter α :=
  match v.before with
  | [] => (none, v)
  | a :: rest => (some a, ⟨rest, a :: v.after⟩)

/-- `VecIter::peek_prev`: the entry just to the left, without moving. -/
def peekPrev (v : VecIter α) : Option α := v.before.head?

def start (v : VecIter α) : VecIter α := ⟨[], v.contents⟩

def end_ (v : VecIter α) : VecIter α := ⟨v.contents.reverse, []⟩

/-- `VecIter::seek_ge(key)` for entry type `K × V`:
`binary_search_by_key` on the (sorted, duplicate-free by key) contents
positions the cursor just left of the first entry whose key is `≥ key`. -/
def seekGe {K V : Type} [LinearOrder K] (key : K) (v : VecIter (K × V)) :
    VecIter (K × V) :=
  ⟨(v.contents.takeWhile fun e => e.1 < key).reverse,
   v.contents.dropWhile fun e => e.1 < key⟩

end VecIter

/-! ## The merging iterator (`MergingIter`, src/memtable/mod.rs)

A cursor over N peer cursors.  We instantiate the peers with `VecIter`s
(the source is generic in `I : KVIter`); the peer list plays the role of
the `iters` vector. -/

namespace MergingIter

variable {K V : Type} [LinearOrder K]

/-- The scan of `MergingIter::lowest`: tracks `Option (index, key of that
peer's peek())` and takes a later peer only when its key is strictly
smaller. -/
def lowestAux : List (VecIter (K × V)) → Nat → Option (Nat × K) → Option (Nat × K)
  | [], _, acc => acc
  | it :: rest, i, acc =>
    match acc with
    | none => lowestAux rest (i + 1) (it.peek.map fun e => (i, e.1))
    | some (j, k) =>
      match it.peek with
      | some (k2, _) =>
        if k2 < k then lowestAux rest (i + 1) (some (i, k2))
        else lowestAux rest (i + 1) (some (j, k))
      | none => lowestAux rest (i + 1) (some (j, k))

def lowest (iters : List (VecIter (K × V))) : Option Nat :=
  (lowestAux iters 0 none).map (·.1)

/-- The scan of `MergingIter::highest`, translated verbatim: when a later
peer's `peek_prev` key `k2` is strictly greater than the tracked key `k`,
the source replaces the accumulator with `(idx, (k, v))` — the new peer's
index but the PREVIOUSLY tracked entry `(k, v)`. -/
def highestAux : List (VecIter (K × V)) → Nat → Option (Nat × (K × V)) →
    Option (Nat × (K × V))
  | [], _, acc => acc
  | it :: rest, i, acc =>
    match acc with
    | none => highestAux rest (i + 1) (it.peekPrev.map fun e => (i, e))
    | some (j, (k, v)) =>
      match it.peekPrev with
      | some (k2, _) =>
        if k < k2 then highestAux rest (i + 1) (some (i, (k, v)))
        else highestAux rest (i + 1) (some (j, (k, v)))
      | none => highestAux rest (i + 1) (some (j, (k, v)))

def highest (iters : List (VecIter (K × V))) : Option Nat :=
  (highestAux iters 0 none).map (·.1)

/-- `MergingIter::peek`. -/
def peek (iters : List (VecIter (K × V))) : Option (K × V) :=
  match lowest iters with
  | none => none
  | some i => (iters.get? i).bind VecIter.peek

/-- `MergingIter::next`. -/
def next (iters : List (VecIter (K × V))) :
    Option (K × V) × List (VecIter (K × V)) :=
  match lowest iters with
  | none => (none, iters)
  | some i =>
    match iters.get? i with
    | none => (none, iters)
    | some it =>
      let (r, it2) := it.next
      (r, iters.set i it2)

/-- `MergingIter::peek_prev`. -/
def peekPrev (iters : List (VecIter (K × V))) : Option (K × V) :=
  match highest iters with
  | none => none
  | some i => (iters.get? i).bind VecIter.peekPrev

/-- `MergingIter::prev`. -/
def prev (iters : List (VecIter (K × V))) :
    Option (K × V) × List (VecIter (K × V)) :=
  match highest iters with
  | none => (none, iters)
  | some i =>
    match iters.get? i with
    | none => (none, iters)
    | some it =>
      let (r, it2) := it.prev
      (r, iters.set i it2)

/-- `MergingIter::seek_ge` forwards the seek to every peer. -/
def seekGe (key : K) (iters : List (VecIter (K × V))) : List (VecIter (K × V)) :=
  iters.map (VecIter.seekGe key)

/-- `MergingIter::start` forwards to every peer. -/
def start (iters : List (VecIter (K × V))) : List (VecIter (K × V)) :=
  iters.map VecIter.start

/-- `MergingIter::end` forwards to every peer. -/
def end_ (iters : List (VecIter (K × V))) : List (VecIter (K × V)) :=
  iters.map VecIter.end_

end MergingIter

/-! ## The level iterator (`LevelIter`, src/db/level_iter.rs)

A concatenation cursor over an ordered sequence of peer cursors, again
instantiated with `VecIter` peers. -/

structure LevelIter (K V : Type) where
  iters : List (VecIter (K × V))
  idx : Nat
  index : List (K × Nat)
deriving Repr, DecidableEq

namespace LevelIter

variable {K V : Type} [LinearOrder K]

/-- `LevelIter::new`: record each peer's first key (from `peek` on the
fresh peer) in `index`; the source then asserts the peer list is
non-empty, which a `none` result models. -/
def new (c : List (VecIter (K × V))) : Option (LevelIter K V) :=
  if c.isEmpty then none
  else
    some
      { iters := c
        idx := 0
        index := (c.enum.filterMap fun ie => ie.2.peek.map fun e => (e.1, ie.1)) }

/-- The advance loop of `LevelIter::next`/`peek`:
`while idx < iters.len() - 1 && iters[idx].peek().is_none()` advance to the
next peer and `start()` it.  A `none` result models an out-of-bounds index
(unreachable on this loop). -/
def fixFwd (L : LevelIter K V) : Option (LevelIter K V) :=
  if h : L.idx + 1 < L.iters.length then
    match L.iters.get? L.idx with
    | none => none
    | some it =>
      if it.peek.isNone then
        match L.iters.get? (L.idx + 1) with
        | none => none
        | some it2 =>
          fixFwd { L with idx := L.idx + 1,
                          iters := L.iters.set (L.idx + 1) it2.start }
      else some L
  else some L
termination_by L.iters.length - L.idx
decreasing_by simp_all; omega

/-- The advance loop of `LevelIter::prev`/`peek_prev`, translated verbatim:
`while idx > 0 && iters[idx].peek_prev().is_none()` the source does
`idx += 1; iters[idx].end()` — it moves to the FOLLOWING peer, not the
preceding one.  A `none` result models the out-of-bounds panic when
`idx + 1` runs past the peer list. -/
def fixRev (L : LevelIter K V) : Option (LevelIter K V) :=
  if L.idx > 0 then
    match L.iters.get? L.idx with
    | none => none
    | some it =>
      if it.peekPrev.isNone then
        match h2 : L.iters.get? (L.idx + 1) with
        | none => none
        | some it2 =>
          fixRev { L with idx := L.idx + 1,
                          iters := L.iters.set (L.idx + 1) it2.end_ }
      else some L
  else some L
termination_by L.iters.length - L.idx
decreasing_by
  have := (List.get?_eq_some.mp h2).1
  simp_all; omega

/-- `LevelIter::next`. -/
def next (L : LevelIter K V) : Option (Option (K × V) × LevelIter K V) := do
  let L2 ← fixFwd L
  match L2.iters.get? L2.idx with
  | none => none
  | some it =>
    let (r, it2) := it.next
    some (r, { L2 with iters := L2.iters.set L2.idx it2 })

/-- `LevelIter::peek`. -/
def peek (L : LevelIter K V) : Option (Option (K × V) × LevelIter K V) := do
  let L2 ← fixFwd L
  match L2.iters.get? L2.idx with
  | none => none
  | some it => some (it.peek, L2)

/-- `LevelIter::prev`. -/
def prev (L : LevelIter K V) : Option (Option (K × V) × LevelIter K V) := do
  let L2 ← fixRev L
  match L2.iters.get? L2.idx with
  | none => none
  | some it =>
    let (r, it2) := it.prev
    some (r, { L2 with iters := L2.iters.set L2.idx it2 })

/-- `LevelIter::peek_prev`. -/
def peekPrev (L : LevelIter K V) : Option (Option (K × V) × LevelIter K V) := do
  let L2 ← fixRev L
  match L2.iters.get? L2.idx with
  | none => none
  | some it => some (it.peekPrev, L2)

/-- `LevelIter::seek_ge`: `binary_search_by_key` over the recorded first
keys — a hit selects that peer, a miss selects the peer before the
insertion point (`saturating_sub`) — then forwards the seek to it. -/
def seekGe (key : K) (L : LevelIter K V) : Option (LevelIter K V) :=
  let p := (L.index.takeWhile fun e => e.1 < key).length
  let i := if (L.index.get? p).map Prod.fst = some key then p else p - 1
  match L.iters.get? i with
  | none => none
  | some it =>
    some { L with idx := i, iters := L.iters.set i (it.seekGe key) }

/-- `LevelIter::start`. -/
def start (L : LevelIter K V) : LevelIter K V :=
  if L.iters.isEmpty then L
  else
    match L.iters.get? 0 with
    | none => L
    | some it => { L with idx := 0, iters := L.iters.set 0 it.start }

/-- `LevelIter::end`. -/
def end_ (L : LevelIter K V) : LevelIter K V :=
  if L.iters.isEmpty then L
  else
    let i := L.iters.length - 1
    match L.iters.get? i with
    | none => L
    | some it => { L with idx := i, iters := L.iters.set i it.end_ }

end LevelIter

/-! ## The seqnum iterator (`SeqnumIter`, src/memtable/mod.rs)

`SeqnumIter` wraps a cursor over `((K, seqnum), Option<V>)` entries and
presents a `(K, V)` cursor at a visible seqnum; we instantiate the
underlying cursor (generic `I : KVIter` in the source) with `VecIter`.
Internal keys `(K, seqnum)` are ordered lexicographically (Rust tuple
`Ord`); since Lean's product order on `K × Nat` is not the lexicographic
one, comparisons with internal keys are spelled out explicitly below. -/

/-- A memtable/SST entry: internal key `(user key, seqnum)` with an
optional value (`none` is a tombstone). -/
abbrev Entry (K V : Type) : Type := (K × Nat) × Option V

namespace SeqnumIterDefs

variable {K V : Type} [LinearOrder K]

/-- Strict lexicographic order on internal keys, as Rust orders
`(K, usize)` tuples. -/
def ikeyLt (a b : K × Nat) : Prop := a.1 < b.1 ∨ (a.1 = b.1 ∧ a.2 < b.2)

instance (a b : K × Nat) : Decidable (ikeyLt a b) :=
  inferInstanceAs (Decidable (a.1 < b.1 ∨ (a.1 = b.1 ∧ a.2 < b.2)))

/-- Strict ordering of entries by internal key; the sortedness hypothesis
of the claims is `List.Pairwise entryLt`. -/
def entryLt (a b : Entry K V) : Prop := ikeyLt a.1 b.1

/-- `VecIter::seek_ge(&(key, s))` on an entry cursor:
`binary_search_by_key` over the sorted contents positions the cursor just
left of the first entry whose internal key is `≥ (key, s)` in
lexicographic order. -/
def seekGeInternal (key : K) (s : Nat) (v : VecIter (Entry K V)) :
    VecIter (Entry K V) :=
  ⟨(v.contents.takeWhile fun e => ikeyLt e.1 (key, s)).reverse,
   v.contents.dropWhile fun e => ikeyLt e.1 (key, s)⟩

end SeqnumIterDefs

open SeqnumIterDefs

/-- The `PhysicalState` enum of `SeqnumIter`. -/
inductive PhysicalState where
  | FwdEq | FwdBehind | RevEq | RevBehind | AtStart | AtEnd
deriving Repr, DecidableEq

structure SeqnumIter (K V : Type) where
  iter : VecIter (Entry K V)
  seqnum : Nat
  state : PhysicalState
  buf : K × V

namespace SeqnumIter

variable {K V : Type} [LinearOrder K] [DecidableEq V]

/-- `SeqnumIter::new(seqnum, iter)`: state `AtStart`, `buf` holds the
`Default::default()` values `dk`, `dv`. -/
def new (dk : K) (dv : V) (seqnum : Nat) (iter : VecIter (Entry K V)) :
    SeqnumIter K V :=
  ⟨iter, seqnum, .AtStart, (dk, dv)⟩

/-- Control mode inside `physical_forwards`.  `seek buf` is the head of
the outer `while !valid` loop together with the inner skip loop
(`while ks.1 > self.seqnum`): the physical cursor is looking for an entry
with `seqnum ≤ s` to land on.  `merge key valid bufv` is the peek loop
(`while let Some((nks, nv)) = self.iter.peek()`): `key` is the current
`buf.0`, and `valid`/`bufv` track `valid` and `buf.1`. -/
inductive PfMode (K V : Type) where
  | seek (buf : K × V)
  | merge (key : K) (valid : Bool) (bufv : V)

def PfMode.rank {K V : Type} : PfMode K V → Nat
  | .seek _ => 0
  | .merge _ _ _ => 1

/-- The update the peek loop of `physical_forwards` applies to
`(valid, buf.1)` at one entry: an eligible entry (`seqnum ≤ s`) installs
its value (`valid = true` for a write, `valid = false` for a tombstone);
an ineligible entry changes nothing. -/
def mergeStep (sq : Nat) (vb : Bool × V) (e : Entry K V) : Bool × V :=
  if e.1.2 ≤ sq then
    match e.2 with
    | some w => (true, w)
    | none => (false, vb.2)
  else vb

/-- The loops of `SeqnumIter::physical_forwards` over the suffix `l` of the
underlying cursor, one consumed entry per recursive step (`acc` collects
consumed entries, most recent first, exactly as `VecIter` pushes them onto
`before`).  Returns `(valid, buf, remaining suffix, acc)`.

Correspondence with the source: in `seek` mode, an entry with
`seqnum > s` is skipped (the inner `while` loop); landing on
`(k, s₁, some w)` sets `buf = (k, w)`, `valid = true` and enters the peek
loop for key `k`; landing on a tombstone leaves `buf` untouched and enters
the peek loop for the stale `buf.0` with `valid = false`.  In `merge` mode,
an entry with the same user key as `buf.0` is consumed, updating
`valid`/`buf.1` if it is eligible (`seqnum ≤ s`); a different user key
breaks out of the peek loop, whereupon the outer loop returns if `valid`
and otherwise restarts. -/
def pfGo (sq : Nat) :
    PfMode K V → List (Entry K V) → List (Entry K V) →
    Bool × (K × V) × List (Entry K V) × List (Entry K V)
  | .seek buf, [], acc => (false, buf, [], acc)
  | .seek buf, e :: rest, acc =>
    if sq < e.1.2 then pfGo sq (.seek buf) rest (e :: acc)
    else
      match e.2 with
      | some w => pfGo sq (.merge e.1.1 true w) rest (e :: acc)
      | none => pfGo sq (.merge buf.1 false buf.2) rest (e :: acc)
  | .merge key valid bufv, [], acc => (valid, (key, bufv), [], acc)
  | .merge key valid bufv, e :: rest, acc =>
    if e.1.1 = key then
      let vb : Bool × V := mergeStep sq (valid, bufv) e
      pfGo sq (.merge key vb.1 vb.2) rest (e :: acc)
    else if valid then (true, (key, bufv), e :: rest, acc)
    else pfGo sq (.seek (key, bufv)) (e :: rest) acc
termination_by mode l _ => l.length * 2 + mode.rank
decreasing_by
  all_goals (simp only [PfMode.rank, List.length_cons]; omega)

/-- `SeqnumIter::physical_forwards`: runs the loops above on the suffix of
the underlying cursor; consumed entries move onto its `before` side. -/
def physicalForwards (s : SeqnumIter K V) : Bool × SeqnumIter K V :=
  let r := pfGo s.seqnum (.seek s.buf) s.iter.after s.iter.before
  (r.1, { s with buf := r.2.1, iter := ⟨r.2.2.2, r.2.2.1⟩ })

/-- Control mode inside `physical_reverse`; `skip key valid bufv` is the
backward peek loop (`while let Some((nks, _)) = self.iter.peek_prev()`),
which consumes entries of user key `key` without inspecting their
values. -/
inductive PrMode (K V : Type) where
  | seek (buf : K × V)
  | skip (key : K) (valid : Bool) (bufv : V)

def PrMode.rank {K V : Type} : PrMode K V → Nat
  | .seek _ => 0
  | .skip _ _ _ => 1

/-- The loops of `SeqnumIter::physical_reverse` over the prefix `l`
(`before` side, most recent first) of the underlying cursor; `acc`
collects consumed entries onto the `after` side.  Unlike the forward
direction, landing on an entry with `seqnum ≤ s` sets `buf.0`
unconditionally, sets `valid`/`buf.1` only for a non-tombstone, and the
backward peek loop merely skips the rest of that user key's entries. -/
def prGo (sq : Nat) :
    PrMode K V → List (Entry K V) → List (Entry K V) →
    Bool × (K × V) × List (Entry K V) × List (Entry K V)
  | .seek buf, [], acc => (false, buf, [], acc)
  | .seek buf, e :: rest, acc =>
    if sq < e.1.2 then prGo sq (.seek buf) rest (e :: acc)
    else
      match e.2 with
      | some w => prGo sq (.skip e.1.1 true w) rest (e :: acc)
      | none => prGo sq (.skip e.1.1 false buf.2) rest (e :: acc)
  | .skip key valid bufv, [], acc => (valid, (key, bufv), [], acc)
  | .skip key valid bufv, e :: rest, acc =>
    if e.1.1 = key then prGo sq (.skip key valid bufv) rest (e :: acc)
    else if valid then (true, (key, bufv), e :: rest, acc)
    else prGo sq (.seek (key, bufv)) (e :: rest) acc
termination_by mode l _ => l.length * 2 + mode.rank
decreasing_by
  all_goals (simp only [PrMode.rank, List.length_cons]; omega)

/-- `SeqnumIter::physical_reverse`. -/
def physicalReverse (s : SeqnumIter K V) : Bool × SeqnumIter K V :=
  let r := prGo s.seqnum (.seek s.buf) s.iter.before s.iter.after
  (r.1, { s with buf := r.2.1, iter := ⟨r.2.2.1, r.2.2.2⟩ })

/-- `SeqnumIter::next`. -/
def next (s : SeqnumIter K V) : Option (K × V) × SeqnumIter K V :=
  match s.state with
  | .AtEnd => (none, s)
  | .RevEq => (some s.buf, { s with state := .RevBehind })
  | .RevBehind =>
    let (ok1, s1) := physicalForwards s
    if ok1 then
      let (ok2, s2) := physicalForwards s1
      if ok2 then (some s2.buf, { s2 with state := .FwdEq })
      else (none, { s2 with state := .AtEnd })
    else (none, { s1 with state := .AtEnd })
  | .AtStart | .FwdEq =>
    let (ok, s1) := physicalForwards s
    if ok then (some s1.buf, { s1 with state := .FwdEq })
    else (none, { s1 with state := .AtEnd })
  | .FwdBehind => (some s.buf, { s with state := .FwdEq })

/-- `SeqnumIter::prev`. -/
def prev (s : SeqnumIter K V) : Option (K × V) × SeqnumIter K V :=
  match s.state with
  | .AtStart => (none, s)
  | .FwdEq => (some s.buf, { s with state := .FwdBehind })
  | .FwdBehind =>
    let (ok1, s1) := physicalReverse s
    if ok1 then
      let (ok2, s2) := physicalReverse s1
      if ok2 then (some s2.buf, { s2 with state := .RevEq })
      else (none, { s2 with state := .AtStart })
    else (none, { s1 with state := .AtStart })
  | .AtEnd | .RevEq =>
    let (ok, s1) := physicalReverse s
    if ok then (some s1.buf, { s1 with state := .RevEq })
    else (none, { s1 with state := .AtStart })
  | .RevBehind => (some s.buf, { s with state := .RevEq })

/-- `SeqnumIter::peek`. -/
def peek (s : SeqnumIter K V) : Option (K × V) × SeqnumIter K V :=
  match s.state with
  | .AtEnd => (none, s)
  | .AtStart | .FwdEq =>
    let (ok, s1) := physicalForwards s
    if ok then (some s1.buf, { s1 with state := .FwdBehind })
    else (none, { s1 with state := .AtEnd })
  | .FwdBehind => (some s.buf, s)
  | .RevEq => (some s.buf, s)
  | .RevBehind =>
    let (ok1, s1) := physicalForwards s
    if ok1 then
      let (ok2, s2) := physicalForwards s1
      if ok2 then (some s2.buf, { s2 with state := .FwdBehind })
      else (none, { s2 with state := .AtEnd })
    else (none, { s1 with state := .AtEnd })

/-- `SeqnumIter::peek_prev`. -/
def peekPrev (s : SeqnumIter K V) : Option (K × V) × SeqnumIter K V :=
  match s.state with
  | .AtStart => (none, s)
  | .FwdBehind =>
    let (ok1, s1) := physicalReverse s
    if ok1 then
      let (ok2, s2) := physicalReverse s1
      if ok2 then (some s2.buf, { s2 with state := .RevBehind })
      else (none, { s2 with state := .AtStart })
    else (none, { s1 with state := .AtStart })
  | .FwdEq => (some s.buf, s)
  | .RevBehind => (some s.buf, s)
  | .AtEnd | .RevEq =>
    let (ok, s1) := physicalReverse s
    if ok then (some s1.buf, { s1 with state := .RevBehind })
    else (none, { s1 with state := .AtStart })

/-- `SeqnumIter::seek_ge(key)`: forwards `seek_ge((key, 0))` to the
underlying cursor, then runs one `physical_forwards`; state becomes
`FwdBehind` on success and `FwdEq` otherwise. -/
def seekGe (key : K) (s : SeqnumIter K V) : SeqnumIter K V :=
  let s1 := { s with iter := seekGeInternal key 0 s.iter }
  let (ok, s2) := physicalForwards s1
  if ok then { s2 with state := .FwdBehind } else { s2 with state := .FwdEq }

/-- `SeqnumIter::start`. -/
def start (s : SeqnumIter K V) : SeqnumIter K V :=
  let s1 := { s with iter := s.iter.start, state := .FwdBehind }
  (physicalForwards s1).2

/-- `SeqnumIter::end`. -/
def end_ (s : SeqnumIter K V) : SeqnumIter K V :=
  let s1 := { s with iter := s.iter.end_, state := .RevBehind }
  (physicalReverse s1).2

/-- Repeated `next` calls collecting the yielded pairs; `fuel` bounds the
number of calls (forward iteration from `AtStart` consumes at least one
underlying entry per yielded pair, so `contents.length + 1` fuel runs any
such iteration to completion). -/
def runNexts : Nat → SeqnumIter K V → List (K × V)
  | 0, _ => []
  | fuel + 1, s =>
    match next s with
    | (none, _) => []
    | (some kv, s2) => kv :: runNexts fuel s2

end SeqnumIter

/-! ### What claim C4 says the seqnum iterator yields

The visible collapse of a sorted entry stream at seqnum `s`: for each user
key in ascending order, the versions with `seqnum ≤ s` are eligible and
the one with the largest seqnum wins; the key is emitted with the winning
value unless the winner is a tombstone (or no version is eligible). -/

namespace SeqnumSpec

variable {K V : Type} [LinearOrder K] [DecidableEq V]

/-- The winning value of one user key's block of versions (sorted by
ascending seqnum): the last eligible version's value, `none` if it is a
tombstone or if no version is eligible. -/
def winStep (sq : Nat) (acc : Option V) (e : Entry K V) : Option V :=
  if e.1.2 ≤ sq then e.2 else acc

def blockWin (sq : Nat) (blk : List (Entry K V)) : Option V :=
  blk.foldl (winStep sq) none

/-- One step of the visible collapse: resolve the first user key's block,
yielding its key and winning value if the winner is a non-tombstone, and
otherwise move on to the next user key. -/
def collapseOne (sq : Nat) : List (Entry K V) → Option ((K × V) × List (Entry K V))
  | [] => none
  | e :: rest =>
    let k := e.1.1
    let blk := e :: rest.takeWhile fun e2 => e2.1.1 = k
    let rest2 := rest.dropWhile fun e2 => e2.1.1 = k
    match blockWin sq blk with
    | some w => some ((k, w), rest2)
    | none => collapseOne sq rest2
termination_by l => l.length
decreasing_by
  have hs := (List.dropWhile_suffix (l := rest)
    fun e2 : Entry K V => decide (e2.1.1 = e.1.1)).length_le
  simp only [List.length_cons]
  omega

/-- The full visible collapse of a sorted entry stream: block by block in
ascending user-key order, each key paired with its winning value, keys
with a tombstone winner (or no eligible version) omitted. -/
def visibleSpec (sq : Nat) : List (Entry K V) → List (K × V)
  | [] => []
  | e :: rest =>
    let k := e.1.1
    let blk := e :: rest.takeWhile fun e2 => e2.1.1 = k
    let rest2 := rest.dropWhile fun e2 => e2.1.1 = k
    (match blockWin sq blk with
     | some w => [(k, w)]
     | none => []) ++ visibleSpec sq rest2
termination_by l => l.length
decreasing_by
  have hs := (List.dropWhile_suffix (l := rest)
    fun e2 : Entry K V => decide (e2.1.1 = e.1.1)).length_le
  simp only [List.length_cons]
  omega

end SeqnumSpec

/-! ## The memtable (src/memtable/mod.rs)

A stack of sorted slabs (`entries : Vec<Rc<Vec<DBEntry>>>`); each insert
pushes a singleton slab and then re-establishes the skew-merge shape by
merging adjacent slabs bottom-up. -/

/-- `DBCommand` from src/db/mod.rs. -/
inductive DBCommand (K V : Type) where
  | Write (seqnum : Nat) (k : K) (v : V)
  | Delete (seqnum : Nat) (k : K)
deriving Repr, DecidableEq

structure Memtable (K V : Type) where
  prev_seqnum : Nat
  entries : List (List (Entry K V))

namespace Memtable

variable {K V : Type} [LinearOrder K]

def new : Memtable K V := ⟨0, []⟩

/-- `Memtable::merge`: merge two sorted slabs, comparing internal keys
`(K, seqnum)` lexicographically (Rust tuple `Ord`); ties take the
right-hand entry, exactly as the source's `else` branch does. -/
def mergeSlabs : List (Entry K V) → List (Entry K V) → List (Entry K V)
  | [], r => r
  | l, [] => l
  | e1 :: l, e2 :: r =>
    if ikeyLt e1.1 e2.1 then e1 :: mergeSlabs l (e2 :: r)
    else e2 :: mergeSlabs (e1 :: l) r

/-- `Memtable::maybe_fix_at(idx)`: if slab `idx` is less than twice the
length of slab `idx + 1`, splice the two into their merge.  (In the
insertion loop below both indices are always in bounds; out-of-bounds
access, which would panic in Rust, is modelled as a no-op.) -/
def maybe_fix_at (idx : Nat) (es : List (List (Entry K V))) :
    List (List (Entry K V)) :=
  match es.get? idx, es.get? (idx + 1) with
  | some a, some b =>
    if a.length < b.length * 2 then
      es.take idx ++ [mergeSlabs a b] ++ es.drop (idx + 2)
    else es
  | _, _ => es

/-- The fixing loop of `insert_val`:
`for i in (0..(entries.len() - 1)).rev() { maybe_fix_at(i) }`, i.e.
`maybe_fix_at` from the second-to-last index down to `0`. -/
def fixLoop : Nat → List (List (Entry K V)) → List (List (Entry K V))
  | 0, es => maybe_fix_at 0 es
  | i + 1, es => fixLoop i (maybe_fix_at (i + 1) es)

/-- `Memtable::insert_val`: record the seqnum, push the singleton slab,
then run the fixing loop (the loop range is computed after the push and is
empty when only one slab exists). -/
def insert_val (s : Nat) (k : K) (v : Option V) (m : Memtable K V) :
    Memtable K V :=
  let es := m.entries ++ [[((k, s), v)]]
  { prev_seqnum := s
    entries := if 2 ≤ es.length then fixLoop (es.length - 2) es else es }

def insert (s : Nat) (k : K) (v : V) (m : Memtable K V) : Memtable K V :=
  insert_val s k (some v) m

def delete (s : Nat) (k : K) (m : Memtable K V) : Memtable K V :=
  insert_val s k none m

def apply_command (cmd : DBCommand K V) (m : Memtable K V) : Memtable K V :=
  match cmd with
  | .Write seqnum k v => m.insert seqnum k v
  | .Delete seqnum k => m.delete seqnum k

/-- The skew-merge invariant of claim C9: each slab is at least twice as
long as the next one. -/
def SkewInvariant (es : List (List (Entry K V))) : Prop :=
  es.Chain' fun a b => b.length * 2 ≤ a.length

instance (es : List (List (Entry K V))) : Decidable (SkewInvariant es) :=
  inferInstanceAs
    (Decidable (es.Chain' fun a b : List (Entry K V) => b.length * 2 ≤ a.length))

end Memtable

/-! ## The SST writer and reader (src/sst/writer.rs, src/sst/reader.rs)

The writer consumes a cursor and lays entries out in data blocks of
`RESET_INTERVAL` entries, followed by an index block of
`(first_key_of_block, (block_offset, block_length))` entries and a
metadata block.  We model the byte layer at block granularity: an on-disk
block is the list of entries the reader's `Block::load` decodes from it
(prefix compression round-trips within each block), and the index names a
block by its position in the file, standing for its `(offset, length)`
pair.  The reader's `Block` has the cursor fields `data`/`idx` and
operation bodies of `VecIter` and is modelled by the same zipper;
`Block::load` followed by `align_start`/`align_end` is `VecIter.new`
followed by `start`/`end_`. -/

def RESET_INTERVAL : Nat := 2

namespace Sst

variable {K V : Type} [LinearOrder K]

/-- The block layout `SstWriter::write` produces: `build_block` pulls up
to `RESET_INTERVAL` entries per block until the source cursor is
exhausted. -/
def chunkBlocks (es : List (K × V)) : List (List (K × V)) :=
  if h : es.isEmpty then []
  else es.take RESET_INTERVAL :: chunkBlocks (es.drop RESET_INTERVAL)
termination_by es.length
decreasing_by
  have h1 : es.length ≠ 0 := by
    simpa [List.isEmpty_iff, List.length_eq_zero] using h
  simp only [List.length_drop, RESET_INTERVAL]
  omega

/-- The SST file produced by `SstWriter::write` from the (non-empty,
sorted) stream `es`; `none` models the `bail!("will only write non-empty
SST")`.  The index and metadata are determined by the data blocks and are
recomputed by the reader below. -/
def write (es : List (K × V)) : Option (List (List (K × V))) :=
  if es.isEmpty then none else some (chunkBlocks es)

/-- The `ReaderState` enum of `SstReader`. -/
inductive ReaderState where
  | LeftOfLoadedBlock | RightOfLoadedBlock
deriving Repr, DecidableEq

/-- `SstReader`: the decoded index block (a cursor over
`(first_key, block number)` entries), the lazily loaded current block,
and the two-sided state.  `blocks` is the immutable file content. -/
structure Reader (K V : Type) where
  blocks : List (List (K × V))
  index_block : VecIter (K × Nat)
  current_block : VecIter (K × V)
  state : ReaderState

/-- `SstReader::load`: parse the index eagerly (one entry per data block,
carrying the block's first key), position the index cursor at the start,
start with an empty current block, state `RightOfLoadedBlock`. -/
def load (blocks : List (List (K × V))) : Reader K V :=
  { blocks := blocks
    index_block :=
      VecIter.new ((blocks.enum.filterMap fun ib => ib.2.head?.map fun e => (e.1, ib.1)))
    current_block := VecIter.new []
    state := .RightOfLoadedBlock }

/-- `SstReader::next_block`: advance the index cursor; at its end, load
the empty block and report `false`; otherwise load the named block aligned
to its start.  (Index entries built by `load` always name existing blocks,
so the `getD` default is never read.) -/
def nextBlock (r : Reader K V) : Bool × Reader K V :=
  match r.index_block.next with
  | (none, ib) =>
    (false, { r with index_block := ib, current_block := VecIter.new [] })
  | (some e, ib) =>
    (true, { r with index_block := ib,
                    current_block := VecIter.new (r.blocks.getD e.2 []) })

/-- `SstReader::prev_block`: symmetric, loading the block aligned to its
end. -/
def prevBlock (r : Reader K V) : Bool × Reader K V :=
  match r.index_block.prev with
  | (none, ib) =>
    (false, { r with index_block := ib, current_block := VecIter.new [] })
  | (some e, ib) =>
    (true, { r with index_block := ib,
                    current_block := (VecIter.new (r.blocks.getD e.2 [])).end_ })

/-- `SstReader::next`. -/
def next (r : Reader K V) : Option (K × V) × Reader K V :=
  if r.current_block.peek.isSome then
    let (res, cb) := r.current_block.next
    (res, { r with current_block := cb })
  else
    match r.state with
    | .RightOfLoadedBlock =>
      let (ok, r1) := nextBlock r
      if ok then
        let (res, cb) := r1.current_block.next
        (res, { r1 with current_block := cb, state := .RightOfLoadedBlock })
      else (none, { r1 with state := .LeftOfLoadedBlock })
    | .LeftOfLoadedBlock =>
      let (ok1, r1) := nextBlock r
      if ok1 then
        let (ok2, r2) := nextBlock r1
        if ok2 then
          let (res, cb) := r2.current_block.next
          (res, { r2 with current_block := cb, state := .RightOfLoadedBlock })
        else (none, { r2 with state := .LeftOfLoadedBlock })
      else (none, { r1 with state := .LeftOfLoadedBlock })

/-- `SstReader::peek`. -/
def peek (r : Reader K V) : Option (K × V) × Reader K V :=
  if r.current_block.peek.isSome then (r.current_block.peek, r)
  else
    match r.state with
    | .RightOfLoadedBlock =>
      let (ok, r1) := nextBlock r
      if ok then (r1.current_block.peek, { r1 with state := .RightOfLoadedBlock })
      else (none, { r1 with state := .LeftOfLoadedBlock })
    | .LeftOfLoadedBlock =>
      let (ok1, r1) := nextBlock r
      if ok1 then
        let (ok2, r2) := nextBlock r1
        if ok2 then (r2.current_block.peek, { r2 with state := .RightOfLoadedBlock })
        else (none, { r2 with state := .LeftOfLoadedBlock })
      else (none, { r1 with state := .LeftOfLoadedBlock })

/-- `SstReader::prev`. -/
def prev (r : Reader K V) : Option (K × V) × Reader K V :=
  if r.current_block.peekPrev.isSome then
    let (res, cb) := r.current_block.prev
    (res, { r with current_block := cb })
  else
    match r.state with
    | .LeftOfLoadedBlock =>
      let (ok, r1) := prevBlock r
      if ok then
        let (res, cb) := r1.current_block.prev
        (res, { r1 with current_block := cb, state := .LeftOfLoadedBlock })
      else (none, { r1 with state := .RightOfLoadedBlock })
    | .RightOfLoadedBlock =>
      let (ok1, r1) := prevBlock r
      if ok1 then
        let (ok2, r2) := prevBlock r1
        if ok2 then
          let (res, cb) := r2.current_block.prev
          (res, { r2 with current_block := cb, state := .LeftOfLoadedBlock })
        else (none, { r2 with state := .RightOfLoadedBlock })
      else (none, { r1 with state := .RightOfLoadedBlock })

/-- `SstReader::peek_prev`. -/
def peekPrev (r : Reader K V) : Option (K × V) × Reader K V :=
  if r.current_block.peekPrev.isSome then (r.current_block.peekPrev, r)
  else
    match r.state with
    | .LeftOfLoadedBlock =>
      let (ok, r1) := prevBlock r
      if ok then (r1.current_block.peekPrev, { r1 with state := .LeftOfLoadedBlock })
      else (none, { r1 with state := .RightOfLoadedBlock })
    | .RightOfLoadedBlock =>
      let (ok1, r1) := prevBlock r
      if ok1 then
        let (ok2, r2) := prevBlock r1
        if ok2 then (r2.current_block.peekPrev, { r2 with state := .LeftOfLoadedBlock })
        else (none, { r2 with state := .RightOfLoadedBlock })
      else (none, { r1 with state := .RightOfLoadedBlock })

/-- `SstReader::seek_ge(key)`: `seek_gt` on the index (partition point of
`first_key ≤ key`), step back one if possible, load that block, binary
search within it, state `RightOfLoadedBlock`. -/
def seekGe (key : K) (r : Reader K V) : Reader K V :=
  let c := r.index_block.contents
  let ib1 : VecIter (K × Nat) :=
    ⟨(c.takeWhile fun e => e.1 ≤ key).reverse, c.dropWhile fun e => e.1 ≤ key⟩
  let ib2 : VecIter (K × Nat) :=
    match ib1.before with
    | [] => ib1
    | a :: rest => ⟨rest, a :: ib1.after⟩
  let (_, r1) := nextBlock { r with index_block := ib2 }
  { r1 with current_block := r1.current_block.seekGe key,
            state := .RightOfLoadedBlock }

/-- `SstReader::start`: align the index to its start, set state
`LeftOfLoadedBlock`, and load the next (i.e. first) block. -/
def start (r : Reader K V) : Reader K V :=
  (nextBlock { r with index_block := r.index_block.start,
                      state := .LeftOfLoadedBlock }).2

/-- `SstReader::end`: align the index to its end, set state
`RightOfLoadedBlock`, load the previous (i.e. last) block, move the index
cursor back to its end, and align the block to its end. -/
def end_ (r : Reader K V) : Reader K V :=
  let (_, r1) := prevBlock { r with index_block := r.index_block.end_,
                                    state := .RightOfLoadedBlock }
  { r1 with
      index_block :=
        (match r1.index_block.after with
         | [] => r1.index_block
         | a :: rest => ⟨a :: r1.index_block.before, rest⟩)
      current_block := r1.current_block.end_ }

end Sst

/-- The cursor operation alphabet of the reader test harness
(`Op` in src/sst/reader.rs). -/
inductive CursorOp where
  | next | peek | prev | peekPrev | start | toEnd
deriving Repr, DecidableEq

/-- Run an operation sequence against the SST reader, recording each
reading operation's result, as `results_match` in the reader test harness
does. -/
def Sst.runOps {K V : Type} [LinearOrder K] :
    List CursorOp → Sst.Reader K V → List (Option (K × V))
  | [], _ => []
  | op :: rest, r =>
    match op with
    | .next => let (res, r2) := Sst.next r; res :: runOps rest r2
    | .peek => let (res, r2) := Sst.peek r; res :: runOps rest r2
    | .prev => let (res, r2) := Sst.prev r; res :: runOps rest r2
    | .peekPrev => let (res, r2) := Sst.peekPrev r; res :: runOps rest r2
    | .start => runOps rest (Sst.start r)
    | .toEnd => runOps rest (Sst.end_ r)

/-- Run the same operation sequence against the reference cursor over the
fully-materialized vector (`VecIter`), per the spec's reference-cursor
comparison. -/
def VecIter.runOps {K V : Type} [LinearOrder K] :
    List CursorOp → VecIter (K × V) → List (Option (K × V))
  | [], _ => []
  | op :: rest, v =>
    match op with
    | .next => let (res, v2) := v.next; res :: runOps rest v2
    | .peek => v.peek :: runOps rest v
    | .prev => let (res, v2) := v.prev; res :: runOps rest v2
    | .peekPrev => v.peekPrev :: runOps rest v
    | .start => runOps rest v.start
    | .toEnd => runOps rest v.end_

/-! ## The LSM coordinator's layout, merge and flush (src/db/mod.rs)

The coordinator is modelled over an abstract internal-key type `κ`
(in the source, `(K, usize)` under the lexicographic tuple order) and
value type `ω` (`Option<V>`).  SST files are named `sst{id}.sst`; a file
name is represented by its numeric `id`.  An `Sst` carries the metadata
the in-memory layout keeps (`filename`, `min_key`, `max_key`) together
with the immutable file content its reader iterates, and the memtable is
represented by the entry stream its `scan()` cursor yields.  Filesystem
calls cannot fail in this model (the claims settled against it do not
concern I/O failures); Rust panics surface as `RunResult.panic`. -/

inductive RunResult (σ : Type) where
  | ok (st : σ)
  | error
  | panic
deriving Repr, DecidableEq

structure Sst (κ ω : Type) where
  id : Nat
  min_key : κ
  max_key : κ
  entries : List (κ × ω)
deriving Repr, DecidableEq

/-- `DiskLayout` from src/db/mod.rs (WAL file names `wal{seqnum}` are
likewise represented by their numeric seqnums). -/
structure DiskLayout where
  max_sst_seqnum : Nat
  next_sst_id : Nat
  l0 : List Nat
  ssts : List (List Nat)
  wals : List Nat
deriving Repr, DecidableEq

namespace DiskLayout

def new : DiskLayout := ⟨0, 0, [], [], []⟩

/-- `DiskLayout::remove_sst`. -/
def remove_sst (fname : Nat) (d : DiskLayout) : DiskLayout :=
  { d with l0 := d.l0.filter (· ≠ fname)
           ssts := d.ssts.map (List.filter (· ≠ fname)) }

/-- `DiskLayout::add_sst`: level 0 appends to `l0`; otherwise the level
list is extended as needed and the name inserted at `index`. -/
def add_sst (fname level index : Nat) (d : DiskLayout) : DiskLayout :=
  if level = 0 then { d with l0 := d.l0 ++ [fname] }
  else
    let ssts := d.ssts ++ List.replicate (level - d.ssts.length) []
    { d with ssts := ssts.set (level - 1) ((ssts.getD (level - 1) []).insertIdx index fname) }

end DiskLayout

structure Db (κ ω : Type) where
  root : DiskLayout
  memtable : List (κ × ω)
  l0 : List (Sst κ ω)
  ssts : List (List (Sst κ ω))
  next_seqnum : Nat
  visible_seqnum : Nat
deriving Repr, DecidableEq

namespace Db

variable {κ ω : Type} [LinearOrder κ]

/-- `Db::retrieve_sst(level, idx)`: `none` models the
`bail!("invalid sst")` paths. -/
def retrieve_sst (db : Db κ ω) (level idx : Nat) : Option (Sst κ ω) :=
  if level = 0 then db.l0.get? idx
  else if level ≤ db.ssts.length then (db.ssts.getD (level - 1) []).get? idx
  else none

/-- The inner loop of the transitive-closure scan in `Db::merge`: walk one
level's SSTs in order, adding an SST when its address is among the desired
targets or (short-circuit `||`) its key range intersects the accumulated
range set, in which case the range set is extended by union.  `none`
models a panic inside `intersects`/`union`. -/
def scanLevel (desired : List (Nat × Nat)) (li : Nat) :
    List (Sst κ ω) → Nat → KeyspaceSubset κ × List (Nat × Nat) →
    Option (KeyspaceSubset κ × List (Nat × Nat))
  | [], _, st => some st
  | sst :: rest, i, (aff, tgts) => do
    let myRange := KeyspaceSubset.new_from_singleton (sst.min_key, sst.max_key)
    let cond ←
      if desired.contains (li, i) then pure true
      else aff.intersects myRange
    if cond then
      let aff2 ← aff.union myRange
      scanLevel desired li rest (i + 1) (aff2, tgts ++ [(li, i)])
    else
      scanLevel desired li rest (i + 1) (aff, tgts)

/-- The closure scan over the levels in order, `li` enumerating them
(L0 is level index 0). -/
def scanLevels (desired : List (Nat × Nat)) :
    List (List (Sst κ ω)) → Nat → KeyspaceSubset κ × List (Nat × Nat) →
    Option (KeyspaceSubset κ × List (Nat × Nat))
  | [], _, st => some st
  | level :: rest, li, st => do
    let st2 ← scanLevel desired li level 0 st
    scanLevels desired rest (li + 1) st2

/-- The transitive-closure scan over L0 followed by the lower levels. -/
def closureScan (db : Db κ ω) (desired : List (Nat × Nat)) :
    Option (List (Nat × Nat)) := do
  let (_, tgts) ← scanLevels desired (db.l0 :: db.ssts) 0 (KeyspaceSubset.new, [])
  some tgts

/-- Two-way sorted merge by key, left entry first on ties, as the merging
iterator interleaves two sorted streams. -/
def merge2 : List (κ × ω) → List (κ × ω) → List (κ × ω)
  | [], r => r
  | l, [] => l
  | e1 :: l, e2 :: r =>
    if e1.1 ≤ e2.1 then e1 :: merge2 l (e2 :: r)
    else e2 :: merge2 (e1 :: l) r

/-- The stream the `MergingIter` over the target SSTs' readers produces:
the sorted interleaving of their (sorted) entry streams. -/
def mergeAll (ls : List (List (κ × ω))) : List (κ × ω) :=
  ls.foldr merge2 []

/-- `Db::merge(targets, target_level)`.

Bail paths: `target_level < max(level of targets)` and `retrieve_sst`
failures yield `.error`.  Panic paths (`.panic`): a panic inside the
interval algebra during the closure scan; `ssts[target_level - 1]` when
`target_level = 0` and an output SST exists (usize underflow);
`binary_search_by_key(..).unwrap_err()` when an SST in the target level
already has the new SST's `max_key`.  The in-memory reshape and the root
transform follow the source line by line; `binary_search` insertion
points are taken on the level list sorted by `max_key`. -/
def merge (db : Db κ ω) (targets : List (Nat × Nat)) (target_level : Nat) :
    RunResult (Db κ ω) :=
  let max_level := (targets.map Prod.fst).foldl max 0
  if target_level < max_level then .error
  else if targets.isEmpty then .ok db
  else
    match closureScan db targets with
    | none => .panic
    | some closure =>
      match closure.mapM (fun t => db.retrieve_sst t.1 t.2) with
      | none => .error
      | some ssts =>
        let merged := mergeAll (ssts.map (·.entries))
        let newSst : Option (Sst κ ω) :=
          match merged.head?, merged.getLast? with
          | some h, some l => some ⟨db.root.next_sst_id, h.1, l.1, merged⟩
          | _, _ => none
        let names := ssts.map (·.id)
        let l0b := db.l0.filter fun s => ¬ names.contains s.id
        let sstsb := db.ssts.map fun lvl => lvl.filter fun s => ¬ names.contains s.id
        let sstsb := sstsb ++ List.replicate (target_level - sstsb.length) []
        let rootRm : DiskLayout :=
          names.foldl (fun d n => d.remove_sst n)
            { db.root with next_sst_id := db.root.next_sst_id + 1 }
        match newSst with
        | none =>
          .ok { db with root := rootRm, l0 := l0b, ssts := sstsb }
        | some ns =>
          if target_level = 0 then .panic
          else
            let lvl := sstsb.getD (target_level - 1) []
            if lvl.any fun s => s.max_key = ns.max_key then .panic
            else
              let i := (lvl.takeWhile fun s => s.max_key < ns.max_key).length
              .ok { db with
                      root := rootRm.add_sst ns.id target_level i
                      l0 := l0b
                      ssts := sstsb.set (target_level - 1) (lvl.insertIdx i ns) }

/-- `Db::flush_memtable`: a no-op on an empty memtable; otherwise write
the memtable stream to `sst{next_sst_id}.sst`, reset the memtable, append
the run to L0, create a fresh WAL named by `next_seqnum`, and transform
the root (`next_sst_id += 1`, `wals := [new]`, append to `l0`,
`max_sst_seqnum := next_seqnum - 1` after the non-regression assert,
whose failure panics). -/
def flush (db : Db κ ω) : RunResult (Db κ ω) :=
  if db.memtable.isEmpty then .ok db
  else
    match db.memtable.head?, db.memtable.getLast? with
    | some h, some l =>
      let id := db.root.next_sst_id
      let ns : Sst κ ω := ⟨id, h.1, l.1, db.memtable⟩
      let mu := db.next_seqnum - 1
      if db.root.max_sst_seqnum ≤ mu then
        .ok { db with
                memtable := []
                l0 := db.l0 ++ [ns]
                root := { db.root with
                            next_sst_id := id + 1
                            wals := [db.next_seqnum]
                            l0 := db.root.l0 ++ [id]
                            max_sst_seqnum := mu } }
      else .panic
    | _, _ => .panic

/-- A mutation applied to the coordinator at this abstraction: append the
entry to the memtable stream (in internal-key order) and advance the
seqnum counters, as `Db::insert`/`Db::delete` do through
`apply_command`. -/
def write (ik : κ) (v : ω) (db : Db κ ω) : Db κ ω :=
  let s := db.next_seqnum + 1
  { db with
      memtable := db.memtable.takeWhile (fun e => e.1 < ik) ++ [(ik, v)] ++
        db.memtable.dropWhile (fun e => e.1 < ik)
      next_seqnum := s
      visible_seqnum := max db.visible_seqnum s }

/-- The SST ids the in-memory layout references. -/
def layoutIds (db : Db κ ω) : List Nat :=
  db.l0.map (·.id) ++ (db.ssts.map fun lvl => lvl.map (·.id)).flatten

/-- All referenced SST ids are below the allocator `next_sst_id`: the
freshness invariant behind "SST identifiers are never reused". -/
def IdBound (db : Db κ ω) : Prop :=
  ∀ id ∈ db.layoutIds, id < db.root.next_sst_id

end Db

/-! ## The coordinator's read path (src/db/mod.rs, `Db::insert`/`Db::get`)

For claim C3 the engine is modelled at the level of `Db::scan`'s output:
the cursor stack that `scan` builds (memtable merging iterator, one
cursor per L0 run, one level iterator per lower level, all fed into a
`MergingIter`) presents the sorted stream of all live
`((K, seqnum), Option<V>)` entries to the `SeqnumIter` on top; the state
below the `SeqnumIter` is therefore represented by that sorted stream,
whether the entries live in the memtable or in SSTs.  `get` is then the
source's `scan` + `seek_ge(k)` + `next()` + key comparison, verbatim
through the `SeqnumIter`. -/

structure DbL (K V : Type) where
  entries : List (Entry K V)
  next_seqnum : Nat
  visible_seqnum : Nat

namespace DbL

variable {K V : Type} [LinearOrder K] [DecidableEq V]

def empty : DbL K V := ⟨[], 0, 0⟩

/-- Insertion of a fresh entry into the sorted live stream (the new
internal key `(k, s)` sorts after all existing versions of `k`). -/
def insertEntry (e : Entry K V) (l : List (Entry K V)) : List (Entry K V) :=
  l.takeWhile (fun x => ikeyLt x.1 e.1) ++ [e] ++
    l.dropWhile (fun x => ikeyLt x.1 e.1)

/-- `Db::insert(k, v)`: allocate the next seqnum, apply the `Write`
command, ratchet `visible_seqnum`. -/
def insert (k : K) (v : V) (db : DbL K V) : DbL K V :=
  let s := db.next_seqnum + 1
  { entries := insertEntry ((k, s), some v) db.entries
    next_seqnum := s
    visible_seqnum := max db.visible_seqnum s }

/-- `Db::delete(k)`: as `insert`, with a tombstone. -/
def delete (k : K) (db : DbL K V) : DbL K V :=
  let s := db.next_seqnum + 1
  { entries := insertEntry ((k, s), none) db.entries
    next_seqnum := s
    visible_seqnum := max db.visible_seqnum s }

/-- `Db::get(k)`: build the snapshot scan at `visible_seqnum`,
`seek_ge(k)`, `next()`, and return the value iff the returned user key
equals `k`. -/
def get [Inhabited K] [Inhabited V] (db : DbL K V) (k : K) : Option V :=
  let scan : SeqnumIter K V :=
    SeqnumIter.new default default db.visible_seqnum (VecIter.new db.entries)
  match (SeqnumIter.next (SeqnumIter.seekGe k scan)).1 with
  | some kv => if kv.1 = k then some kv.2 else none
  | none => none

/-- One engine mutation, for stating "no intervening mutation of `k`". -/
inductive Op (K V : Type) where
  | ins (k : K) (v : V)
  | del (k : K)

def Op.key {K V : Type} : Op K V → K
  | .ins k _ => k
  | .del k => k

def applyOp (op : Op K V) (db : DbL K V) : DbL K V :=
  match op with
  | .ins k v => db.insert k v
  | .del k => db.delete k

def applyOps (ops : List (Op K V)) (db : DbL K V) : DbL K V :=
  ops.foldl (fun d op => applyOp op d) db

/-- Well-formedness of the logical engine state: the live stream is
sorted by internal key, every stored seqnum is positive and at most
`next_seqnum`, and `visible_seqnum` has ratcheted at least to
`next_seqnum`'s last mutation (at open, `visible_seqnum = next_seqnum`). -/
def WF (db : DbL K V) : Prop :=
  db.entries.Pairwise entryLt ∧
  (∀ e ∈ db.entries, e.1.2 ≤ db.next_seqnum) ∧
  db.next_seqnum ≤ db.visible_seqnum

end DbL

/-! ## Proof-level definitions for claims C3 and C4

`VB`, `mergeCollapse` and `SeekGood` name the correspondence between the
loops of `physical_forwards` and the visible collapse; `HasLiveMax` is the
state invariant behind read-your-write. -/

namespace SeqnumProofs

open SeqnumIter SeqnumSpec

variable {K V : Type} [LinearOrder K]

variable {K V : Type} [LinearOrder K]

/-- Correspondence between the peek loop's `(valid, buf.1)` pair and the
option-valued winner fold. -/
def VB (vb : Bool × V) (o : Option V) : Prop :=
  (vb.1 = true ∧ o = some vb.2) ∨ (vb.1 = false ∧ o = none)

/-- What the collapse looks like from the middle of a key block: the rest
of the block (the leading run of entries with user key `key`) is folded on
top of `o`, and a `none` winner falls through to collapsing the
remainder. -/
def mergeCollapse {K V : Type} [LinearOrder K] (sq : Nat) (key : K) (o : Option V)
    (r : List (Entry K V)) : Option ((K × V) × List (Entry K V)) :=
  match (r.takeWhile fun e => e.1.1 = key).foldl (winStep sq) o with
  | some w => some ((key, w), r.dropWhile fun e => e.1.1 = key)
  | none => collapseOne sq (r.dropWhile fun e => e.1.1 = key)

/-- The induction motive: from seek mode at suffix `es`, `pfGo` yields the
first collapsed pair (or correctly reports exhaustion). -/
def SeekGood {K V : Type} [LinearOrder K] (sq : Nat) (es : List (Entry K V))
    (buf : K × V) (acc : List (Entry K V)) : Prop :=
  (∀ kv rest, collapseOne sq es = some (kv, rest) →
      ∃ acc2, pfGo sq (.seek buf) es acc = (true, kv, rest, acc2)) ∧
  (collapseOne sq es = none →
      ∃ buf2 acc2, pfGo sq (.seek buf) es acc = (false, buf2, [], acc2))

instance {K V : Type} [LinearOrder K] (a b : Entry K V) : Decidable (entryLt a b) :=
  inferInstanceAs (Decidable (ikeyLt a.1 b.1))

/-- `k` has a live maximal version with value `v`: some visible version of
`k` carries `some v` and dominates every version of `k` in the stream. -/
def HasLiveMax {K V : Type} [LinearOrder K] (k : K) (v : V) (db : DbL K V) : Prop :=
  ∃ s0, ((k, s0), some v) ∈ db.entries ∧ s0 ≤ db.visible_seqnum ∧
    ∀ e2 ∈ db.entries, e2.1.1 = k → e2.1.2 ≤ s0

instance {K V : Type} [LinearOrder K] (db : DbL K V) : Decidable db.WF :=
  inferInstanceAs (Decidable (db.entries.Pairwise entryLt ∧
    (∀ e ∈ db.entries, e.1.2 ≤ db.next_seqnum) ∧
    db.next_seqnum ≤ db.visible_seqnum))

end SeqnumProofs

/-! # Theorems

Claim-by-claim results.  Counterexample theorems evaluate the embedded
code at explicit inputs; the larger positive claims are proved by
induction over the embedded state machines. -/

/-! ## Supporting lemmas: memtable skew-merge shape -/

namespace Memtable

variable {K V : Type} [LinearOrder K]

theorem mergeSlabs_length (l r : List (Entry K V)) :
    (mergeSlabs l r).length = l.length + r.length := by
  induction l, r using mergeSlabs.induct with
  | case1 r => simp [mergeSlabs]
  | case2 l => simp [mergeSlabs]
  | case3 e1 l e2 r h ih => simp [mergeSlabs, h, ih]; omega
  | case4 e1 l e2 r h ih => simp [mergeSlabs, h, ih]; omega

theorem chain_merge_cons (a b : List (Entry K V)) (T : List (List (Entry K V)))
    (h : SkewInvariant (b :: T)) : SkewInvariant (mergeSlabs a b :: T) := by
  cases T with
  | nil => simp [SkewInvariant]
  | cons t0 T2 =>
    rw [SkewInvariant, List.chain'_cons] at h ⊢
    exact ⟨by rw [mergeSlabs_length]; omega, h.2⟩

/-- The local effect of `maybe_fix_at 0` on a two-or-more-slab stack
preserves the skew shape on the suffix. -/
theorem maybe_fix_at_zero_chain (a : List (Entry K V)) (S : List (List (Entry K V)))
    (hS : S ≠ []) (hc : SkewInvariant S) :
    SkewInvariant (maybe_fix_at 0 ([a] ++ S)) := by
  cases S with
  | nil => exact absurd rfl hS
  | cons b T =>
    by_cases hm : a.length < b.length * 2
    · have : maybe_fix_at 0 ([a] ++ b :: T) = mergeSlabs a b :: T := by
        simp [maybe_fix_at, hm]
      rw [this]
      exact chain_merge_cons a b T hc
    · have : maybe_fix_at 0 ([a] ++ b :: T) = a :: b :: T := by
        simp [maybe_fix_at, hm]
      rw [this]
      rw [SkewInvariant, List.chain'_cons]
      exact ⟨by omega, hc⟩

/-- `maybe_fix_at` at the boundary index acts locally on the suffix. -/
theorem maybe_fix_at_append (f2 : List (List (Entry K V))) (a : List (Entry K V))
    (S : List (List (Entry K V))) :
    maybe_fix_at f2.length (f2 ++ a :: S) = f2 ++ maybe_fix_at 0 ([a] ++ S) := by
  have hget0 : (f2 ++ a :: S)[f2.length]? = some a := by
    rw [List.getElem?_append_right (Nat.le_refl _)]
    simp
  have hget1 : (f2 ++ a :: S)[f2.length + 1]? = S[0]? := by
    rw [List.getElem?_append_right (by omega)]
    simp [Nat.add_sub_cancel_left]
  cases S with
  | nil =>
    simp only [List.getElem?_nil] at hget1
    simp [maybe_fix_at, List.get?_eq_getElem?, hget0, hget1]
  | cons b T =>
    simp only [List.getElem?_cons_zero] at hget1
    simp only [maybe_fix_at, List.get?_eq_getElem?, hget0, hget1]
    have hdrop : (f2 ++ a :: b :: T).drop (f2.length + 2) = T := by
      rw [List.drop_append_eq_append_drop]
      simp
    by_cases hm : a.length < b.length * 2
    · simp [hm, List.take_left, hdrop]
    · simp [hm]

theorem maybe_fix_at_zero_ne_nil (a b : List (Entry K V)) (T : List (List (Entry K V))) :
    maybe_fix_at 0 ([a] ++ b :: T) ≠ [] := by
  simp only [maybe_fix_at, List.singleton_append, List.get?_cons_zero,
    List.get?_cons_succ]
  by_cases hm : a.length < b.length * 2 <;> simp [hm]

/-- The bottom-up fixing pass restores the skew invariant: at each step
the untouched prefix keeps its original shape and the already-fixed
suffix stays skewed, because a merged slab only grows. -/
theorem fixLoop_chain (front : List (List (Entry K V))) :
    front ≠ [] → SkewInvariant front →
    ∀ S, S ≠ [] → SkewInvariant S →
    SkewInvariant (fixLoop (front.length - 1) (front ++ S)) := by
  induction front using List.reverseRecOn with
  | nil => intro h; exact absurd rfl h
  | append_singleton f2 a ih =>
    intro _ hfront S hS hcS
    by_cases hf2 : f2 = []
    · subst hf2
      simpa [fixLoop] using maybe_fix_at_zero_chain a S hS hcS
    · have hlen : (f2 ++ [a]).length - 1 = (f2.length - 1) + 1 := by
        have := List.length_pos.mpr hf2
        simp
        omega
      have hassoc : (f2 ++ [a]) ++ S = f2 ++ (a :: S) := by simp
      rw [hlen, hassoc]
      show SkewInvariant
        (fixLoop (f2.length - 1) (maybe_fix_at ((f2.length - 1) + 1) (f2 ++ a :: S)))
      have hidx : (f2.length - 1) + 1 = f2.length := by
        have := List.length_pos.mpr hf2
        omega
      rw [hidx, maybe_fix_at_append]
      cases S with
      | nil => exact absurd rfl hS
      | cons b T =>
        have hchain : SkewInvariant f2 := by
          rw [SkewInvariant] at hfront
          exact (List.chain'_append.mp hfront).1
        exact ih hf2 hchain _ (maybe_fix_at_zero_ne_nil a b T)
          (maybe_fix_at_zero_chain a (b :: T) (by simp) hcS)

theorem insert_val_skew (m : Memtable K V) (s : Nat) (k : K) (v : Option V)
    (h : SkewInvariant m.entries) :
    SkewInvariant (insert_val s k v m).entries := by
  rw [insert_val]
  by_cases hme : m.entries = []
  · rw [hme]
    simp [SkewInvariant]
  · have hpos := List.length_pos.mpr hme
    have hlen : 2 ≤ (m.entries ++ [[((k, s), v)]]).length := by
      simp
      omega
    simp only [if_pos hlen]
    have hl2 : (m.entries ++ [[((k, s), v)]]).length - 2 = m.entries.length - 1 := by
      simp
    rw [hl2]
    exact fixLoop_chain m.entries hme h [[((k, s), v)]]
      (by simp) (by simp [SkewInvariant])

end Memtable

/-! ## Supporting lemmas: SST id allocation in merge and flush -/

theorem DiskLayout.remove_sst_next_sst_id (d : DiskLayout) (n : Nat) :
    (d.remove_sst n).next_sst_id = d.next_sst_id := rfl

theorem foldl_remove_sst_next_sst_id (names : List Nat) (d : DiskLayout) :
    (names.foldl (fun d n => d.remove_sst n) d).next_sst_id = d.next_sst_id := by
  induction names generalizing d with
  | nil => rfl
  | cons n rest ih => simp [List.foldl_cons, ih, DiskLayout.remove_sst_next_sst_id]

theorem DiskLayout.add_sst_next_sst_id (d : DiskLayout) (f lv i : Nat) :
    (d.add_sst f lv i).next_sst_id = d.next_sst_id := by
  rw [DiskLayout.add_sst]
  split <;> rfl

/-- Ids of a layout whose L0 and levels have been filtered (and the level
list padded with empty levels) are ids of the original layout. -/
theorem mem_layoutIds_filtered {κ ω : Type} [LinearOrder κ]
    (db : Db κ ω) (q : Sst κ ω → Bool) (pad : Nat)
    (r2 : DiskLayout) (mt2 : List (κ × ω)) (n2 v2 : Nat) (id : Nat)
    (hid : id ∈ (Db.mk r2 mt2 (db.l0.filter q)
        (db.ssts.map (fun lvl => lvl.filter q) ++ List.replicate pad []) n2 v2).layoutIds) :
    id ∈ db.layoutIds := by
  rw [Db.layoutIds, List.mem_append] at hid ⊢
  rcases hid with hA | hB
  · left
    rcases List.mem_map.mp hA with ⟨s, hs, rfl⟩
    exact List.mem_map.mpr ⟨s, (List.mem_filter.mp hs).1, rfl⟩
  · right
    rcases List.mem_flatten.mp hB with ⟨l, hl, hidl⟩
    rcases List.mem_map.mp hl with ⟨lvl, hlvl, rfl⟩
    rcases List.mem_append.mp hlvl with hlv | hlv
    · rcases List.mem_map.mp hlv with ⟨lvl0, hlvl0, rfl⟩
      rcases List.mem_map.mp hidl with ⟨s, hs, rfl⟩
      exact List.mem_flatten.mpr ⟨lvl0.map (fun x => x.id),
        List.mem_map.mpr ⟨lvl0, hlvl0, rfl⟩,
        List.mem_map.mpr ⟨s, (List.mem_filter.mp hs).1, rfl⟩⟩
    · rw [List.eq_of_mem_replicate hlv] at hidl
      simp at hidl

theorem mem_sstsb_ids {κ ω : Type} [LinearOrder κ]
    (db : Db κ ω) (q : Sst κ ω → Bool) (pad : Nat)
    (lvl2 : List (Sst κ ω))
    (h : lvl2 ∈ db.ssts.map (fun lvl => lvl.filter q) ++ List.replicate pad [])
    (s : Sst κ ω) (hs : s ∈ lvl2) : s.id ∈ db.layoutIds := by
  rw [Db.layoutIds, List.mem_append]
  right
  rcases List.mem_append.mp h with hlv | hlv
  · rcases List.mem_map.mp hlv with ⟨lvl0, hlvl0, rfl⟩
    exact List.mem_flatten.mpr ⟨lvl0.map (fun x => x.id),
      List.mem_map.mpr ⟨lvl0, hlvl0, rfl⟩,
      List.mem_map.mpr ⟨s, (List.mem_filter.mp hs).1, rfl⟩⟩
  · rw [List.eq_of_mem_replicate hlv] at hs
    simp at hs

/-- Ids of a reshaped layout with one new SST inserted into a level come
from the original layout or are the new SST's id. -/
theorem mem_layoutIds_inserted {κ ω : Type} [LinearOrder κ]
    (db : Db κ ω) (q : Sst κ ω → Bool) (pad : Nat) (ns : Sst κ ω) (j i : Nat)
    (hi : i ≤ ((db.ssts.map (fun lvl : List (Sst κ ω) => lvl.filter q) ++
        List.replicate pad [])[j]?.getD []).length)
    (r2 : DiskLayout) (mt2 : List (κ × ω)) (n2 v2 : Nat) (id : Nat)
    (hid : id ∈ (Db.mk r2 mt2 (db.l0.filter q)
        ((db.ssts.map (fun lvl : List (Sst κ ω) => lvl.filter q) ++ List.replicate pad []).set j
          (List.insertIdx i ns
            ((db.ssts.map (fun lvl : List (Sst κ ω) => lvl.filter q) ++
              List.replicate pad [])[j]?.getD [])))
        n2 v2).layoutIds) :
    id ∈ db.layoutIds ∨ id = ns.id := by
  rw [Db.layoutIds, List.mem_append] at hid
  rcases hid with hA | hB
  · left
    rw [Db.layoutIds, List.mem_append]
    left
    rcases List.mem_map.mp hA with ⟨s, hs, rfl⟩
    exact List.mem_map.mpr ⟨s, (List.mem_filter.mp hs).1, rfl⟩
  · rcases List.mem_flatten.mp hB with ⟨l, hl, hidl⟩
    rcases List.mem_map.mp hl with ⟨lvl2, hlvl2, rfl⟩
    rcases List.mem_or_eq_of_mem_set hlvl2 with hmem | rfl
    · rcases List.mem_map.mp hidl with ⟨s, hs, rfl⟩
      exact Or.inl (mem_sstsb_ids db q pad lvl2 hmem s hs)
    · rcases List.mem_map.mp hidl with ⟨s, hs, rfl⟩
      rcases (List.mem_insertIdx hi).mp hs with rfl | hs2
      · exact Or.inr rfl
      · set sstsb := db.ssts.map (fun lvl : List (Sst κ ω) => lvl.filter q) ++
          List.replicate pad [] with hss
        by_cases hj : j < sstsb.length
        · have hD : sstsb[j]?.getD [] = sstsb[j] := by
            rw [List.getElem?_eq_getElem hj]
            rfl
          rw [hD] at hs2
          exact Or.inl (mem_sstsb_ids db q pad _ (List.getElem_mem hj) s hs2)
        · have hD : sstsb[j]?.getD [] = [] := by
            rw [List.getElem?_eq_none (by omega)]
            rfl
          rw [hD] at hs2
          simp at hs2

/-- Every `Ok` result of `merge` with non-empty targets carries a root
transformed by exactly one `next_sst_id += 1`. -/
theorem merge_ok_next_sst_id {κ ω : Type} [LinearOrder κ]
    (db db2 : Db κ ω) (targets : List (Nat × Nat)) (tl : Nat)
    (hne : targets ≠ []) (hok : Db.merge db targets tl = .ok db2) :
    db2.root.next_sst_id = db.root.next_sst_id + 1 := by
  rw [Db.merge] at hok
  dsimp only [] at hok
  repeat' split at hok
  all_goals first
    | exact absurd (List.isEmpty_iff.mp (by assumption)) hne
    | (injection hok with h; subst h;
       simp [foldl_remove_sst_next_sst_id, DiskLayout.add_sst_next_sst_id])
    | simp at hok

set_option maxHeartbeats 1000000 in
/-- A successful merge keeps every referenced SST id below the (bumped)
allocator: newly created SSTs take the old `next_sst_id` and survivors
were already bounded. -/
theorem merge_ok_preserves_IdBound {κ ω : Type} [LinearOrder κ]
    (db db2 : Db κ ω) (targets : List (Nat × Nat)) (tl : Nat)
    (hne : targets ≠ []) (hok : Db.merge db targets tl = .ok db2)
    (hb : Db.IdBound db) : Db.IdBound db2 := by
  rw [Db.merge] at hok
  dsimp only [] at hok
  repeat' split at hok
  all_goals first
    | exact absurd (List.isEmpty_iff.mp (by assumption)) hne
    | simp at hok
    | skip
  all_goals subst hok
  all_goals intro id hid
  · have hmem := mem_layoutIds_filtered db _ _ _ _ _ _ id hid
    have hlt : id < db.root.next_sst_id := hb id hmem
    simp [foldl_remove_sst_next_sst_id]
    omega
  · rename_i ns hsome htl0 hdup
    have hns : ns.id = db.root.next_sst_id := by
      split at hsome
      · injection hsome with h
        rw [← h]
      · cases hsome
    have hmem := mem_layoutIds_inserted db _ _ _ _ _
      ((List.takeWhile_sublist _).length_le) _ _ _ _ id hid
    simp [DiskLayout.add_sst_next_sst_id, foldl_remove_sst_next_sst_id]
    rcases hmem with hmem | rfl
    · have := hb id hmem
      omega
    · omega

/-- A flush of a non-empty memtable likewise bumps the allocator by one
and keeps all ids bounded by it. -/
theorem flush_ok_bumps {κ ω : Type} [LinearOrder κ]
    (db db2 : Db κ ω) (hok : Db.flush db = .ok db2) (hne : ¬db.memtable.isEmpty) :
    db2.root.next_sst_id = db.root.next_sst_id + 1 ∧
    (Db.IdBound db → Db.IdBound db2) := by
  rw [Db.flush, if_neg hne] at hok
  split at hok
  · dsimp only [] at hok
    split at hok
    · injection hok with h
      subst h
      refine ⟨rfl, fun hb id hid => ?_⟩
      rw [Db.layoutIds, List.mem_append] at hid
      rcases hid with hA | hB
      · rcases List.mem_map.mp hA with ⟨s, hs, rfl⟩
        rcases List.mem_append.mp hs with hs | hs
        · have : s.id ∈ db.layoutIds := by
            rw [Db.layoutIds, List.mem_append]
            exact Or.inl (List.mem_map.mpr ⟨s, hs, rfl⟩)
          have := hb _ this
          simp
          omega
        · simp at hs
          subst hs
          simp
      · have : id ∈ db.layoutIds := by
          rw [Db.layoutIds, List.mem_append]
          exact Or.inr hB
        have := hb _ this
        simp
        omega
    · cases hok
  · cases hok

/-- C1: REFUTED on the code.  With the well-formed (ordered, disjoint,
`lo ≤ hi`) interval sets `A = [(5,6)]` and `B = [(0,1),(5,6)]`,
`A.intersects(B)` returns `false` although the interval `(5,6)` lies in
both sets: the loop reads `other.ranges[my_idx]` instead of
`other.ranges[other_idx]`, so after `other_idx` advances it keeps
comparing against `B`'s first interval. -/
theorem keyspace_intersects_misindexed :
    KeyspaceSubset.intersects (⟨[(5, 6)]⟩ : KeyspaceSubset Nat) ⟨[(0, 1), (5, 6)]⟩
      = some false ∧
    KeyspaceSubset.overlapsSpec (⟨[(5, 6)]⟩ : KeyspaceSubset Nat) ⟨[(0, 1), (5, 6)]⟩
      = true ∧
    KeyspaceSubset.WellFormed (⟨[(5, 6)]⟩ : KeyspaceSubset Nat) ∧
    KeyspaceSubset.WellFormed (⟨[(0, 1), (5, 6)]⟩ : KeyspaceSubset Nat) := by
  refine ⟨?_, by decide, by norm_num [KeyspaceSubset.WellFormed],
    by norm_num [KeyspaceSubset.WellFormed]⟩
  simp [KeyspaceSubset.intersects, KeyspaceSubset.intersectsLoop]

/-- C2: REFUTED on the code.  The filesystem trace of `Root::write`
contains no sync at all (the `fsync` calls are commented out; `flush()` on
a `std::fs::File` is a userspace no-op) and no unlink of the temporary
file, although it does issue the rename — so the descriptor bytes are not
synced before the rename, contrary to the claim. -/
theorem root_write_never_syncs_before_rename :
    ∀ encoded : List Nat,
      (rootWriteTrace encoded).filter FsEvent.isSync = [] ∧
      (rootWriteTrace encoded).filter FsEvent.isUnlink = [] ∧
      FsEvent.rename rootTmpPath rootPath ∈ rootWriteTrace encoded := by
  intro encoded
  refine ⟨rfl, rfl, ?_⟩
  simp [rootWriteTrace]

/-- C5: REFUTED on the code.  Three peers whose `peek_prev` keys are
`5`, `10`, `7` (each at its end, reached by `end()`): `highest()` keeps
the stale tracked key `5` when it switches peers, so both `prev()` and
`peek_prev()` select peer 2 and return `(7, 70)`, although peer 1's
`peek_prev` key `10` is the largest. -/
theorem merging_iter_prev_picks_wrong_peer :
    (MergingIter.prev
        (MergingIter.end_
          [VecIter.new [((5:Nat), (50:Nat))], VecIter.new [(10, 100)],
           VecIter.new [(7, 70)]])).1 = some (7, 70) ∧
    MergingIter.peekPrev
        (MergingIter.end_
          [VecIter.new [((5:Nat), (50:Nat))], VecIter.new [(10, 100)],
           VecIter.new [(7, 70)]]) = some (7, 70) ∧
    (MergingIter.end_
        [VecIter.new [((5:Nat), (50:Nat))], VecIter.new [(10, 100)],
         VecIter.new [(7, 70)]]).map VecIter.peekPrev
      = [some (5, 50), some (10, 100), some (7, 70)] := by
  decide

/-- C6: REFUTED on the code.  Two non-overlapping peers `[(1,10)]` and
`[(2,20)]`: after `seek_ge(2)` the iterator sits on peer 1 at its start,
and `prev()` — instead of moving to the preceding peer and calling
`end()` on it, which would yield `(1,10)` as the reference cursor over
the concatenation does — executes `idx += 1` and indexes past the peer
list (a Rust panic, modelled by `none`). -/
theorem level_iter_prev_walks_off_peer_list :
    ((LevelIter.new [VecIter.new [((1:Nat), (10:Nat))], VecIter.new [(2, 20)]]).bind
        (LevelIter.seekGe 2)).bind LevelIter.prev = none ∧
    (VecIter.prev (VecIter.seekGe 2 (VecIter.new [((1:Nat), (10:Nat)), (2, 20)]))).1
      = some (1, 10) := by
  constructor
  · have h1 : LevelIter.new [VecIter.new [((1:Nat), (10:Nat))], VecIter.new [(2, 20)]]
        = some ⟨[⟨[], [(1, 10)]⟩, ⟨[], [(2, 20)]⟩], 0, [(1, 0), (2, 1)]⟩ := by decide
    have h2 : LevelIter.seekGe 2
          (⟨[⟨[], [(1, 10)]⟩, ⟨[], [(2, 20)]⟩], 0, [(1, 0), (2, 1)]⟩ : LevelIter Nat Nat)
        = some ⟨[⟨[], [(1, 10)]⟩, ⟨[], [(2, 20)]⟩], 1, [(1, 0), (2, 1)]⟩ := by decide
    have h3 : LevelIter.fixRev
          (⟨[⟨[], [(1, 10)]⟩, ⟨[], [(2, 20)]⟩], 1, [(1, 0), (2, 1)]⟩ : LevelIter Nat Nat)
        = none := by
      unfold LevelIter.fixRev
      decide
    rw [h1, Option.some_bind, h2, Option.some_bind, LevelIter.prev, h3]
    rfl
  · decide

/-- C7: REFUTED on the code.  For the single-entry SST `[(1,10)]` and the
operation sequence `[start, prev]`, the reader returns the entry `(1,10)`
while the reference cursor over the materialized vector returns `none`:
`start()` sets the state to `LeftOfLoadedBlock` (its mirror `end()` sets
`RightOfLoadedBlock`), so the first `prev()` reloads the current block at
its end and walks backwards over it instead of reporting the start of the
stream. -/
theorem sst_reader_start_prev_diverges_from_reference :
    Sst.write [((1:Nat), (10:Nat))] = some [[(1, 10)]] ∧
    Sst.runOps [.start, .prev] (Sst.load [[((1:Nat), (10:Nat))]]) = [some (1, 10)] ∧
    VecIter.runOps [.start, .prev] (VecIter.new [((1:Nat), (10:Nat))]) = [none] := by
  refine ⟨?_, by decide, by decide⟩
  simp [Sst.write, Sst.chunkBlocks, RESET_INTERVAL]

/-- C8 counterexample: the claim is REFUTED as stated.  On an engine with
no SSTs at all, `merge([(0,0)], 0)` has a target address naming no SST
(`retrieve_sst(0,0)` fails), yet `merge` returns `Ok`: the closure scan
only visits SSTs present in the layout, so an out-of-range target address
is silently ignored. -/
theorem merge_ignores_out_of_range_target :
    Db.merge (⟨DiskLayout.new, [], [], [], 0, 0⟩ : Db Nat Nat) [(0, 0)] 0
      = .ok ⟨{ DiskLayout.new with next_sst_id := 1 }, [], [], [], 0, 0⟩ ∧
    Db.retrieve_sst (⟨DiskLayout.new, [], [], [], 0, 0⟩ : Db Nat Nat) 0 0 = none := by
  decide

/-- C8 (amended): `merge(targets, target_level)` returns an error whenever
`target_level` is less than the maximum level appearing in `targets`; a
target address that does not name an SST in the current layout does NOT
cause an error — the closure scan visits only SSTs present in the layout,
so such addresses are silently ignored (e.g. `merge([(0,0)], 0)` on an
engine with no SSTs returns `Ok` and still bumps `next_sst_id`). -/
theorem merge_invalid_argument_conditions {κ ω : Type} [LinearOrder κ] :
    (∀ (db : Db κ ω) (targets : List (Nat × Nat)) (tl : Nat),
        tl < (targets.map Prod.fst).foldl max 0 →
        Db.merge db targets tl = .error) ∧
    Db.merge (⟨DiskLayout.new, [], [], [], 0, 0⟩ : Db Nat Nat) [(0, 0)] 0
      = .ok ⟨{ DiskLayout.new with next_sst_id := 1 }, [], [], [], 0, 0⟩ := by
  constructor
  · intro db targets tl h
    rw [Db.merge]
    dsimp only []
    rw [if_pos h]
  · decide

/-- Witness for C8: `merge([(2,0)], 1)` has `target_level 1` below the
maximum source level `2` and errors. -/
theorem merge_invalid_argument_conditions_witness :
    Db.merge (⟨DiskLayout.new, [], [], [], 0, 0⟩ : Db Nat Nat) [(2, 0)] 1 = .error :=
  (merge_invalid_argument_conditions (κ := Nat) (ω := Nat)).1 _ [(2, 0)] 1 (by decide)

/-- C10 (amended): every call to `merge` that RETURNS OK with a non-empty
target list increments `next_sst_id` in the root descriptor by exactly
one — even when the merged stream is empty and no output SST file is
written — and keeps every SST id referenced by the layout below the
allocator, the new SST (if any) taking the old `next_sst_id`; the same
holds for a flush of a non-empty memtable, so SST identifiers are never
reused by later flushes or merges.  (A merge call that returns an error
leaves the root untouched; see the counterexample.) -/
theorem merge_ok_bumps_next_sst_id {κ ω : Type} [LinearOrder κ] :
    (∀ (db db2 : Db κ ω) (targets : List (Nat × Nat)) (tl : Nat),
        targets ≠ [] → Db.merge db targets tl = .ok db2 →
        db2.root.next_sst_id = db.root.next_sst_id + 1 ∧
        (Db.IdBound db → Db.IdBound db2)) ∧
    (∀ (db db2 : Db κ ω), ¬db.memtable.isEmpty → Db.flush db = .ok db2 →
        db2.root.next_sst_id = db.root.next_sst_id + 1 ∧
        (Db.IdBound db → Db.IdBound db2)) :=
  ⟨fun db db2 targets tl hne hok =>
      ⟨merge_ok_next_sst_id db db2 targets tl hne hok,
       merge_ok_preserves_IdBound db db2 targets tl hne hok⟩,
   fun db db2 hne hok => flush_ok_bumps db db2 hok hne⟩

/-- Witness for C10: a concrete merge with a non-empty target list and an
empty merged stream returns `Ok` and bumps `next_sst_id` from 0 to 1. -/
theorem merge_ok_bumps_next_sst_id_witness :
    (⟨{ DiskLayout.new with next_sst_id := 1 }, [], [], [], 0, 0⟩ : Db Nat Nat).root.next_sst_id
      = (⟨DiskLayout.new, [], [], [], 0, 0⟩ : Db Nat Nat).root.next_sst_id + 1 :=
  ((merge_ok_bumps_next_sst_id (κ := Nat) (ω := Nat)).1
    ⟨DiskLayout.new, [], [], [], 0, 0⟩
    ⟨{ DiskLayout.new with next_sst_id := 1 }, [], [], [], 0, 0⟩
    [(0, 0)] 0 (by decide) (by decide)).1

/-- C9: PROVED.  After every memtable operation — `insert`, `delete`, or
`apply_command` — the stack of slabs satisfies the skew-merge invariant:
for each adjacent pair, `len(slab[i]) ≥ 2 · len(slab[i+1])`. -/
theorem memtable_skew_invariant_preserved {K V : Type} [LinearOrder K]
    (m : Memtable K V) (h : Memtable.SkewInvariant m.entries) :
    (∀ s k v, Memtable.SkewInvariant (m.insert s k v).entries) ∧
    (∀ s k, Memtable.SkewInvariant (m.delete s k).entries) ∧
    (∀ cmd, Memtable.SkewInvariant (m.apply_command cmd).entries) := by
  refine ⟨fun s k v => Memtable.insert_val_skew m s k (some v) h,
          fun s k => Memtable.insert_val_skew m s k none h,
          fun cmd => ?_⟩
  cases cmd with
  | Write s k v => exact Memtable.insert_val_skew m s k (some v) h
  | Delete s k => exact Memtable.insert_val_skew m s k none h

/-- Witness for C9: the invariant holds on the empty memtable and is
preserved by a concrete insertion. -/
theorem memtable_skew_invariant_preserved_witness :
    Memtable.SkewInvariant (Memtable.new (K := Nat) (V := Nat)).entries ∧
    Memtable.SkewInvariant ((Memtable.new (K := Nat) (V := Nat)).insert 1 5 50).entries :=
  have h0 : Memtable.SkewInvariant (Memtable.new (K := Nat) (V := Nat)).entries := by
    simp [Memtable.new, Memtable.SkewInvariant]
  ⟨h0, (memtable_skew_invariant_preserved Memtable.new h0).1 1 5 50⟩

/-- C10 counterexample: the claim is REFUTED as stated.  The call
`merge([(1,0)], 0)` has a non-empty target list but fails the
`target_level < max source level` check and returns an error before the
root transform runs, so `next_sst_id` is not incremented by that call. -/
theorem merge_error_call_does_not_bump_id :
    Db.merge (⟨DiskLayout.new, [], [], [], 0, 0⟩ : Db Nat Nat) [(1, 0)] 0
      = .error ∧ ([((1:Nat), (0:Nat))] : List (Nat × Nat)) ≠ [] := by
  decide


/-! ### Claims C3 and C4: the seqnum iterator's visible collapse and
read-your-write through it -/

namespace SeqnumProofs

open SeqnumIter SeqnumSpec

variable {K V : Type} [LinearOrder K]

theorem VB_step (sq : Nat) (vb : Bool × V) (o : Option V) (e : Entry K V)
    (h : VB vb o) : VB (mergeStep sq vb e) (winStep sq o e) := by
  rw [mergeStep, winStep]
  by_cases he : e.1.2 ≤ sq
  · simp only [if_pos he]
    cases hv : e.2 with
    | some w => exact Or.inl ⟨rfl, rfl⟩
    | none => exact Or.inr ⟨rfl, rfl⟩
  · simp only [if_neg he]
    exact h

theorem VB_foldl (sq : Nat) (blk : List (Entry K V)) :
    ∀ (vb : Bool × V) (o : Option V), VB vb o →
      VB (blk.foldl (mergeStep sq) vb) (blk.foldl (winStep sq) o) := by
  induction blk with
  | nil => intro vb o h; exact h
  | cons e rest ih =>
    intro vb o h
    exact ih _ _ (VB_step sq vb o e h)

/-- The merge mode consumes exactly the leading run of entries whose user
key is `key`, folding them into `(valid, buf.1)`, and then either returns
(valid) or falls back to seek mode on the remainder. -/
theorem pfGo_merge_run (sq : Nat) :
    ∀ (l acc : List (Entry K V)) (key : K) (valid : Bool) (bufv : V),
      pfGo sq (.merge key valid bufv) l acc =
        (let blk := l.takeWhile fun e => e.1.1 = key
         let rest := l.dropWhile fun e => e.1.1 = key
         let vb := blk.foldl (mergeStep sq) (valid, bufv)
         if vb.1 then (true, (key, vb.2), rest, blk.reverse ++ acc)
         else pfGo sq (.seek (key, vb.2)) rest (blk.reverse ++ acc)) := by
  intro l
  induction l with
  | nil =>
    intro acc key valid bufv
    simp only [List.takeWhile_nil, List.dropWhile_nil, List.foldl_nil,
      List.reverse_nil, List.nil_append]
    cases valid with
    | true => simp [pfGo]
    | false => simp [pfGo]
  | cons e l2 ih =>
    intro acc key valid bufv
    by_cases hk : e.1.1 = key
    · rw [pfGo]
      simp only [if_pos hk]
      rw [ih (e :: acc) key (mergeStep sq (valid, bufv) e).1 (mergeStep sq (valid, bufv) e).2]
      simp only [List.takeWhile_cons, List.dropWhile_cons, List.foldl_cons, List.reverse_cons]
      simp [hk, List.append_assoc]
    · rw [pfGo]
      simp only [if_neg hk]
      simp only [List.takeWhile_cons, List.dropWhile_cons]
      cases valid with
      | true => simp [hk]
      | false => simp [hk]

/-- A head entry invisible to the collapse (too new, or an eligible
tombstone) does not affect the result of `collapseOne`. -/
theorem collapseOne_cons_skip {K V : Type} [LinearOrder K] (sq : Nat)
    (e : Entry K V) (rest : List (Entry K V))
    (h : winStep sq (none : Option V) e = none) :
    collapseOne sq (e :: rest) = collapseOne sq rest := by
  cases rest with
  | nil =>
    rw [collapseOne]
    simp [blockWin, h, collapseOne]
  | cons e2 r2 =>
    by_cases h2 : e2.1.1 = e.1.1
    · rw [collapseOne, collapseOne]
      simp only [List.takeWhile_cons, List.dropWhile_cons, h2]
      simp [blockWin, h]
    · rw [collapseOne]
      simp only [List.takeWhile_cons, List.dropWhile_cons, h2]
      simp [blockWin, h, h2]

/-- Fuel-indexed helper for `collapseOne_some_length`. -/
theorem collapseOne_some_length_fuel {K V : Type} [LinearOrder K] (sq : Nat) :
    ∀ (n : Nat) (es : List (Entry K V)), es.length ≤ n →
      ∀ kv rest, collapseOne sq es = some (kv, rest) → rest.length < es.length := by
  intro n
  induction n with
  | zero =>
    intro es hlen kv rest h
    rw [List.length_eq_zero.mp (Nat.le_zero.mp hlen)] at h
    rw [collapseOne] at h
    cases h
  | succ n ih =>
    intro es hlen kv rest h
    cases es with
    | nil => rw [collapseOne] at h; cases h
    | cons e r =>
      rw [collapseOne] at h
      have hdl := (List.dropWhile_suffix (l := r)
        fun e2 : Entry K V => decide (e2.1.1 = e.1.1)).length_le
      split at h
      · injection h with h'
        injection h' with h1 h2
        subst h2
        simp only [List.length_cons]
        omega
      · have hlen2 : (r.dropWhile fun e2 => e2.1.1 = e.1.1).length ≤ n := by
          simp only [List.length_cons] at hlen
          omega
        have := ih _ hlen2 kv rest h
        simp only [List.length_cons]
        omega

/-- `collapseOne` strictly shrinks the stream when it yields a pair. -/
theorem collapseOne_some_length {K V : Type} [LinearOrder K] (sq : Nat)
    (es : List (Entry K V)) (kv : K × V) (rest : List (Entry K V))
    (h : collapseOne sq es = some (kv, rest)) : rest.length < es.length :=
  collapseOne_some_length_fuel sq es.length es (le_refl _) kv rest h

/-- Merge mode realizes `mergeCollapse`: folding the remaining block and
then yielding or falling back to seek mode on the rest. -/
theorem merge_phase {K V : Type} [LinearOrder K] (sq n : Nat)
    (mot : ∀ es : List (Entry K V), es.length ≤ n → ∀ buf acc, SeekGood sq es buf acc)
    (r : List (Entry K V)) (hr : r.length ≤ n)
    (key : K) (valid : Bool) (bufv : V) (acc : List (Entry K V)) (o : Option V)
    (ho : VB (valid, bufv) o) :
    (∀ kv rest, mergeCollapse sq key o r = some (kv, rest) →
        ∃ acc2, pfGo sq (.merge key valid bufv) r acc = (true, kv, rest, acc2)) ∧
    (mergeCollapse sq key o r = none →
        ∃ buf2 acc2, pfGo sq (.merge key valid bufv) r acc = (false, buf2, [], acc2)) := by
  have hvb := VB_foldl sq (r.takeWhile fun e => e.1.1 = key) (valid, bufv) o ho
  rw [pfGo_merge_run]
  have hdw : (r.dropWhile fun e => e.1.1 = key).length ≤ n :=
    le_trans (List.dropWhile_suffix (fun e : Entry K V => decide (e.1.1 = key))).length_le hr
  rcases hvb with ⟨ h1, h2 ⟩ | ⟨ h1, h2 ⟩
  · constructor
    · intro kv rest h
      rw [mergeCollapse, h2] at h
      injection h with h'
      injection h' with hkv hrest
      subst hkv; subst hrest
      refine ⟨ (r.takeWhile fun e => e.1.1 = key).reverse ++ acc, ?_ ⟩
      simp only [h1, if_true]
    · intro h
      rw [mergeCollapse, h2] at h
      cases h
  · have hmc : mergeCollapse sq key o r = collapseOne sq (r.dropWhile fun e => e.1.1 = key) := by
      rw [mergeCollapse, h2]
    rw [hmc]
    have hgood := mot (r.dropWhile fun e => e.1.1 = key) hdw
      (key, ((r.takeWhile fun e => e.1.1 = key).foldl (mergeStep sq) (valid, bufv)).2)
      ((r.takeWhile fun e => e.1.1 = key).reverse ++ acc)
    rcases hgood with ⟨ hg1, hg2 ⟩
    constructor
    · intro kv rest h
      rcases hg1 kv rest h with ⟨ acc2, hacc ⟩
      refine ⟨ acc2, ?_ ⟩
      rw [if_neg (by simp [h1])]
      exact hacc
    · intro h
      rcases hg2 h with ⟨ buf2, acc2, hacc ⟩
      refine ⟨ buf2, acc2, ?_ ⟩
      rw [if_neg (by simp [h1])]
      exact hacc

/-- From seek mode, `pfGo` computes exactly `collapseOne`: it yields the
first visible pair of the suffix, or correctly reports exhaustion. -/
theorem pfGo_seek_collapse_fuel {K V : Type} [LinearOrder K] (sq : Nat) :
    ∀ (n : Nat) (es : List (Entry K V)), es.length ≤ n →
      ∀ (buf : K × V) (acc : List (Entry K V)), SeekGood sq es buf acc := by
  intro n
  induction n with
  | zero =>
    intro es hlen buf acc
    rw [List.length_eq_zero.mp (Nat.le_zero.mp hlen)]
    constructor
    · intro kv rest h
      rw [collapseOne] at h
      cases h
    · intro _
      exact ⟨buf, acc, by rw [pfGo]⟩
  | succ n ih =>
    intro es hlen buf acc
    cases es with
    | nil =>
      constructor
      · intro kv rest h
        rw [collapseOne] at h
        cases h
      · intro _
        exact ⟨buf, acc, by rw [pfGo]⟩
    | cons e r =>
      have hr : r.length ≤ n := by
        simp only [List.length_cons] at hlen
        omega
      by_cases helig : sq < e.1.2
      · -- too-new head: both sides skip it
        have hskip : collapseOne sq (e :: r) = collapseOne sq r :=
          collapseOne_cons_skip sq e r (by rw [winStep, if_neg (by omega)])
        have hpf : pfGo sq (.seek buf) (e :: r) acc = pfGo sq (.seek buf) r (e :: acc) := by
          rw [pfGo, if_pos helig]
        constructor
        · intro kv rest h
          rw [hskip] at h
          rw [hpf]
          exact (ih r hr buf (e :: acc)).1 kv rest h
        · intro h
          rw [hskip] at h
          rw [hpf]
          exact (ih r hr buf (e :: acc)).2 h
      · cases hv : e.2 with
        | some w =>
          -- eligible write: enter merge mode on key e.1.1 carrying (true, w)
          have hpf : pfGo sq (.seek buf) (e :: r) acc
              = pfGo sq (.merge e.1.1 true w) r (e :: acc) := by
            rw [pfGo, if_neg helig, hv]
          have hc : collapseOne sq (e :: r) = mergeCollapse sq e.1.1 (some w) r := by
            rw [collapseOne, mergeCollapse]
            have hw : winStep sq (none : Option V) e = some w := by
              rw [winStep, if_pos (by omega), hv]
            simp only [blockWin, List.foldl_cons, hw]
          have hm := merge_phase sq n ih r hr e.1.1 true w (e :: acc) (some w)
            (Or.inl ⟨rfl, rfl⟩)
          constructor
          · intro kv rest h
            rw [hc] at h
            rw [hpf]
            exact hm.1 kv rest h
          · intro h
            rw [hc] at h
            rw [hpf]
            exact hm.2 h
        | none =>
          -- eligible tombstone: merge mode on the stale buffered key
          have hpf : pfGo sq (.seek buf) (e :: r) acc
              = pfGo sq (.merge buf.1 false buf.2) r (e :: acc) := by
            rw [pfGo, if_neg helig, hv]
          have hskip : collapseOne sq (e :: r) = collapseOne sq r :=
            collapseOne_cons_skip sq e r (by rw [winStep, if_pos (by omega), hv])
          have hc : collapseOne sq r = mergeCollapse sq buf.1 (none : Option V) r := by
            cases r with
            | nil =>
              rw [mergeCollapse]
              simp [collapseOne]
            | cons e2 r2 =>
              by_cases hk2 : e2.1.1 = buf.1
              · rw [collapseOne, mergeCollapse]
                simp only [List.takeWhile_cons, List.dropWhile_cons, hk2,
                  blockWin, List.foldl_cons]
                simp
              · rw [mergeCollapse]
                simp only [List.takeWhile_cons, List.dropWhile_cons]
                rw [if_neg (by simpa using hk2), if_neg (by simpa using hk2)]
                simp only [List.foldl_nil]
          have hm := merge_phase sq n ih r hr buf.1 false buf.2 (e :: acc) (none : Option V)
            (Or.inr ⟨rfl, rfl⟩)
          constructor
          · intro kv rest h
            rw [hskip, hc] at h
            rw [hpf]
            exact hm.1 kv rest h
          · intro h
            rw [hskip, hc] at h
            rw [hpf]
            exact hm.2 h


/-- Fuel-indexed helper: `visibleSpec` unfolds through `collapseOne`. -/
theorem visibleSpec_collapse_fuel {K V : Type} [LinearOrder K] (sq : Nat) :
    ∀ (n : Nat) (es : List (Entry K V)), es.length ≤ n →
      visibleSpec sq es =
        (match collapseOne sq es with
         | some (kv, rest) => kv :: visibleSpec sq rest
         | none => []) := by
  intro n
  induction n with
  | zero =>
    intro es hlen
    rw [List.length_eq_zero.mp (Nat.le_zero.mp hlen)]
    rw [visibleSpec, collapseOne]
  | succ n ih =>
    intro es hlen
    cases es with
    | nil => rw [visibleSpec, collapseOne]
    | cons e r =>
      rw [visibleSpec, collapseOne]
      have hdl := (List.dropWhile_suffix (l := r)
        (fun e2 : Entry K V => decide (e2.1.1 = e.1.1))).length_le
      simp only [List.length_cons] at hlen
      cases hbw : blockWin sq (e :: r.takeWhile fun e2 => e2.1.1 = e.1.1) with
      | some w => simp
      | none =>
        simp only [List.nil_append]
        exact ih (r.dropWhile fun e2 => e2.1.1 = e.1.1) (by omega)

/-- `visibleSpec` unfolds through `collapseOne`. -/
theorem visibleSpec_collapse {K V : Type} [LinearOrder K] (sq : Nat)
    (es : List (Entry K V)) :
    visibleSpec sq es =
      (match collapseOne sq es with
       | some (kv, rest) => kv :: visibleSpec sq rest
       | none => []) :=
  visibleSpec_collapse_fuel sq es.length es (le_refl _)

/-- With enough fuel, iterated `next` from `AtStart` or `FwdEq` yields the
visible collapse of the cursor suffix. -/
theorem runNexts_visible_fuel {K V : Type} [LinearOrder K] (sq : Nat) :
    ∀ (n : Nat) (es before : List (Entry K V)) (buf : K × V) (st : PhysicalState),
      (st = .AtStart ∨ st = .FwdEq) → es.length < n →
      runNexts n ⟨⟨before, es⟩, sq, st, buf⟩ = visibleSpec sq es := by
  intro n
  induction n with
  | zero =>
    intro es before buf st hst hlen
    exact absurd hlen (Nat.not_lt_zero _)
  | succ n ih =>
    intro es before buf st hst hlen
    have hgood := pfGo_seek_collapse_fuel sq es.length es (le_refl _) buf before
    rw [runNexts]
    cases hcol : collapseOne sq es with
    | none =>
      rcases hgood.2 hcol with ⟨buf2, acc2, heq⟩
      have hnext : next (⟨⟨before, es⟩, sq, st, buf⟩ : SeqnumIter K V)
          = (none, ⟨⟨acc2, []⟩, sq, .AtEnd, buf2⟩) := by
        rcases hst with rfl | rfl
        · rw [next]
          simp only [physicalForwards, heq]
          rfl
        · rw [next]
          simp only [physicalForwards, heq]
          rfl
      rw [hnext]
      rw [visibleSpec_collapse sq es, hcol]
    | some p =>
      rcases p with ⟨kv, rest⟩
      rcases hgood.1 kv rest hcol with ⟨acc2, heq⟩
      have hnext : next (⟨⟨before, es⟩, sq, st, buf⟩ : SeqnumIter K V)
          = (some kv, ⟨⟨acc2, rest⟩, sq, .FwdEq, kv⟩) := by
        rcases hst with rfl | rfl
        · rw [next]
          simp only [physicalForwards, heq]
          rfl
        · rw [next]
          simp only [physicalForwards, heq]
          rfl
      have hrest : rest.length < n := by
        have := collapseOne_some_length sq es kv rest hcol
        omega
      rw [hnext, visibleSpec_collapse sq es, hcol]
      exact congrArg (fun l => kv :: l) (ih rest acc2 kv .FwdEq (Or.inr rfl) hrest)


/-- The first entry surviving `dropWhile` fails the predicate. -/
theorem dropWhile_head_false {A : Type} (p : A → Bool) :
    ∀ (l : List A) (b : A) (t : List A), l.dropWhile p = b :: t → p b = false := by
  intro l
  induction l with
  | nil => intro b t h; cases h
  | cons a l ih =>
    intro b t h
    rw [List.dropWhile_cons] at h
    by_cases hp : p a = true
    · rw [if_pos hp] at h
      exact ih b t h
    · rw [if_neg hp] at h
      injection h with h1 h2
      subst h1
      exact Bool.not_eq_true _ |>.mp hp

/-- An element failing the predicate is kept by `dropWhile`. -/
theorem mem_dropWhile_of_false {A : Type} (p : A → Bool) (l : List A) (a : A)
    (ha : a ∈ l) (hp : p a = false) : a ∈ l.dropWhile p := by
  have hsplit : l.takeWhile p ++ l.dropWhile p = l := List.takeWhile_append_dropWhile p l
  rw [← hsplit] at ha
  rcases List.mem_append.mp ha with h | h
  · have := List.mem_takeWhile_imp h
    rw [hp] at this
    cases this
  · exact h

/-- In a sorted stream, every entry past the head's key block has a
strictly larger user key. -/
theorem sorted_dropWhile_key_gt {K V : Type} [LinearOrder K]
    (e : Entry K V) (r : List (Entry K V))
    (hs : (e :: r).Pairwise (fun a b : Entry K V => entryLt a b)) :
    ∀ b ∈ r.dropWhile (fun e2 => e2.1.1 = e.1.1), e.1.1 < b.1.1 := by
  rcases List.pairwise_cons.mp hs with ⟨hhead, htail⟩
  cases hdw : r.dropWhile (fun e2 => e2.1.1 = e.1.1) with
  | nil => intro b hb; cases hb
  | cons h2 t2 =>
    have hh2p : decide (h2.1.1 = e.1.1) = false :=
      dropWhile_head_false _ r h2 t2 hdw
    have hh2ne : h2.1.1 ≠ e.1.1 := by simpa using hh2p
    have hh2mem : h2 ∈ r := by
      have : h2 ∈ r.dropWhile (fun e2 => e2.1.1 = e.1.1) := by
        rw [hdw]; exact List.mem_cons_self _ _
      exact (List.dropWhile_sublist _).subset this
    have hh2gt : e.1.1 < h2.1.1 := by
      rcases hhead h2 hh2mem with h | ⟨h, _⟩
      · exact h
      · exact absurd h.symm hh2ne
    intro b hb
    rcases List.mem_cons.mp hb with rfl | hb2
    · exact hh2gt
    · have hdwpw : (r.dropWhile (fun e2 => e2.1.1 = e.1.1)).Pairwise
          (fun a b : Entry K V => entryLt a b) :=
        List.Pairwise.sublist (List.dropWhile_sublist _) htail
      rw [hdw] at hdwpw
      rcases List.pairwise_cons.mp hdwpw with ⟨hh2all, _⟩
      rcases hh2all b hb2 with h | ⟨h, _⟩
      · exact lt_trans hh2gt h
      · exact h ▸ hh2gt

/-- Every entry of the head's key block carries the head's user key. -/
theorem mem_block_key {K V : Type} [LinearOrder K]
    (e : Entry K V) (r : List (Entry K V)) :
    ∀ b ∈ (e :: r.takeWhile fun e2 => e2.1.1 = e.1.1), b.1.1 = e.1.1 := by
  intro b hb
  rcases List.mem_cons.mp hb with rfl | hb2
  · rfl
  · simpa using List.mem_takeWhile_imp hb2

/-- In a sorted stream, the head's key block is strictly increasing in
seqnum. -/
theorem block_seqnum_sorted {K V : Type} [LinearOrder K]
    (e : Entry K V) (r : List (Entry K V))
    (hs : (e :: r).Pairwise (fun a b : Entry K V => entryLt a b)) :
    (e :: r.takeWhile fun e2 => e2.1.1 = e.1.1).Pairwise
      (fun a b : Entry K V => a.1.2 < b.1.2) := by
  have hsub : (e :: r.takeWhile fun e2 => e2.1.1 = e.1.1).Sublist (e :: r) :=
    (List.takeWhile_sublist _).cons₂ e
  have hpw := List.Pairwise.sublist hsub hs
  refine hpw.imp_of_mem ?_
  intro a b ha hb hab
  have hak := mem_block_key e r a ha
  have hbk := mem_block_key e r b hb
  rcases hab with h | ⟨_, h⟩
  · rw [hak, hbk] at h
    exact absurd h (lt_irrefl _)
  · exact h

/-- `blockWin` over a seqnum-sorted block is the value of the
largest-seqnum eligible version: the claim-words characterization. -/
theorem blockWin_iff {K V : Type} [LinearOrder K] (sq : Nat)
    (blk : List (Entry K V))
    (hseq : blk.Pairwise (fun a b : Entry K V => a.1.2 < b.1.2)) (w : V) :
    blockWin sq blk = some w ↔
      ∃ e ∈ blk, e.1.2 ≤ sq ∧ e.2 = some w ∧
        ∀ e2 ∈ blk, e2.1.2 ≤ sq → e2.1.2 ≤ e.1.2 := by
  induction blk using List.reverseRecOn with
  | nil =>
    constructor
    · intro h; cases h
    · rintro ⟨e, he, -⟩; cases he
  | append_singleton l a ih =>
    rcases List.pairwise_append.mp hseq with ⟨hl, -, hcross⟩
    have hbw : blockWin sq (l ++ [a]) = winStep sq (blockWin sq l) a := by
      rw [blockWin, blockWin, List.foldl_append, List.foldl_cons, List.foldl_nil]
    by_cases ha : a.1.2 ≤ sq
    · rw [hbw, winStep, if_pos ha]
      constructor
      · intro h
        refine ⟨a, List.mem_append_right l (List.mem_singleton.mpr rfl), ha, h, ?_⟩
        intro e2 he2 _
        rcases List.mem_append.mp he2 with h2 | h2
        · exact le_of_lt (hcross e2 h2 a (List.mem_singleton.mpr rfl))
        · rw [List.mem_singleton.mp h2]
      · rintro ⟨e, he, helig, hval, hmax⟩
        have hae : a.1.2 ≤ e.1.2 :=
          hmax a (List.mem_append_right l (List.mem_singleton.mpr rfl)) ha
        rcases List.mem_append.mp he with h2 | h2
        · exact absurd hae (not_le.mpr (hcross e h2 a (List.mem_singleton.mpr rfl)))
        · rw [← List.mem_singleton.mp h2]
          exact hval
    · rw [hbw, winStep, if_neg ha]
      rw [ih hl]
      constructor
      · rintro ⟨e, he, helig, hval, hmax⟩
        refine ⟨e, List.mem_append_left _ he, helig, hval, ?_⟩
        intro e2 he2 helig2
        rcases List.mem_append.mp he2 with h2 | h2
        · exact hmax e2 h2 helig2
        · rw [List.mem_singleton.mp h2] at helig2
          exact absurd helig2 ha
      · rintro ⟨e, he, helig, hval, hmax⟩
        rcases List.mem_append.mp he with h2 | h2
        · refine ⟨e, h2, helig, hval, ?_⟩
          intro e2 he2 helig2
          exact hmax e2 (List.mem_append_left _ he2) helig2
        · rw [List.mem_singleton.mp h2] at helig
          exact absurd helig ha

/-- Fuel-indexed membership characterization of the visible collapse:
`(k, w)` is yielded iff some version of `k` with seqnum at most `sq`
carries value `w` and has the largest seqnum among `k`'s eligible
versions. -/
theorem visibleSpec_mem_char_fuel {K V : Type} [LinearOrder K] (sq : Nat) :
    ∀ (n : Nat) (es : List (Entry K V)), es.length ≤ n →
      es.Pairwise (fun a b : Entry K V => entryLt a b) →
      ∀ (k : K) (w : V),
        ((k, w) ∈ visibleSpec sq es ↔
          ∃ e1 ∈ es, e1.1.1 = k ∧ e1.1.2 ≤ sq ∧ e1.2 = some w ∧
            ∀ e2 ∈ es, e2.1.1 = k → e2.1.2 ≤ sq → e2.1.2 ≤ e1.1.2) := by
  intro n
  induction n with
  | zero =>
    intro es hlen _ k w
    rw [List.length_eq_zero.mp (Nat.le_zero.mp hlen), visibleSpec]
    simp
  | succ n ih =>
    intro es hlen hs k w
    cases es with
    | nil => rw [visibleSpec]; simp
    | cons e r =>
      have hsplit : (e :: r.takeWhile fun e2 => e2.1.1 = e.1.1) ++
          (r.dropWhile fun e2 => e2.1.1 = e.1.1) = e :: r := by
        rw [List.cons_append, List.takeWhile_append_dropWhile]
      have hkblk := mem_block_key e r
      have hgt := sorted_dropWhile_key_gt e r hs
      have hdws : (r.dropWhile fun e2 => e2.1.1 = e.1.1).Pairwise
          (fun a b : Entry K V => entryLt a b) :=
        List.Pairwise.sublist (List.dropWhile_sublist _)
          (List.pairwise_cons.mp hs).2
      have hdwlen : (r.dropWhile fun e2 => e2.1.1 = e.1.1).length ≤ n := by
        have := (List.dropWhile_suffix (l := r)
          (fun e2 : Entry K V => decide (e2.1.1 = e.1.1))).length_le
        simp only [List.length_cons] at hlen
        omega
      have hseq := block_seqnum_sorted e r hs
      have hihdw := ih (r.dropWhile fun e2 => e2.1.1 = e.1.1) hdwlen hdws k w
      rw [visibleSpec]
      by_cases hk : k = e.1.1
      · subst hk
        -- the tail of the collapse never yields this key again
        have htail : ((e.1.1, w) ∈ visibleSpec sq
            (r.dropWhile fun e2 => e2.1.1 = e.1.1)) → False := by
          intro hmem
          rcases hihdw.mp hmem with ⟨e1, he1, hk1, -⟩
          exact absurd (hk1 ▸ hgt e1 he1) (lt_irrefl e.1.1)
        -- the block's winner is the claim-words winner over the whole list
        have hwin : blockWin sq (e :: r.takeWhile fun e2 => e2.1.1 = e.1.1) = some w ↔
            ∃ e1 ∈ e :: r, e1.1.1 = e.1.1 ∧ e1.1.2 ≤ sq ∧ e1.2 = some w ∧
              ∀ e2 ∈ e :: r, e2.1.1 = e.1.1 → e2.1.2 ≤ sq → e2.1.2 ≤ e1.1.2 := by
          rw [blockWin_iff sq _ hseq]
          constructor
          · rintro ⟨e1, he1, helig, hval, hmax⟩
            refine ⟨e1, ?_, hkblk e1 he1, helig, hval, ?_⟩
            · rw [← hsplit]
              exact List.mem_append_left _ he1
            · intro e2 he2 hk2 helig2
              rw [← hsplit] at he2
              rcases List.mem_append.mp he2 with h2 | h2
              · exact hmax e2 h2 helig2
              · exact absurd (hk2 ▸ hgt e2 h2) (lt_irrefl e.1.1)
          · rintro ⟨e1, he1, hk1, helig, hval, hmax⟩
            rw [← hsplit] at he1
            rcases List.mem_append.mp he1 with h1 | h1
            · refine ⟨e1, h1, helig, hval, ?_⟩
              intro e2 he2 helig2
              refine hmax e2 ?_ (hkblk e2 he2) helig2
              rw [← hsplit]
              exact List.mem_append_left _ he2
            · exact absurd (hk1 ▸ hgt e1 h1) (lt_irrefl e.1.1)
        cases hbw : blockWin sq (e :: r.takeWhile fun e2 => e2.1.1 = e.1.1) with
        | some w2 =>
          constructor
          · intro h
            rcases List.mem_append.mp h with h | h
            · have hw2 : w = w2 := by
                have := List.mem_singleton.mp h
                exact (Prod.mk.injEq _ _ _ _ |>.mp this).2
              refine hwin.mp ?_
              rw [hbw, hw2]
            · exact absurd h htail
          · intro hchar
            have hsw : blockWin sq (e :: r.takeWhile fun e2 => e2.1.1 = e.1.1)
                = some w := hwin.mpr hchar
            rw [hbw] at hsw
            injection hsw with hw
            refine List.mem_append_left _ ?_
            rw [hw]
            exact List.mem_singleton.mpr rfl
        | none =>
          rw [List.nil_append]
          constructor
          · intro h
            exact absurd h htail
          · intro hchar
            have hsw : blockWin sq (e :: r.takeWhile fun e2 => e2.1.1 = e.1.1)
                = some w := hwin.mpr hchar
            rw [hbw] at hsw
            cases hsw
      · -- foreign key: the head block contributes nothing
        have hmatch : (k, w) ∈
            (match blockWin sq (e :: r.takeWhile fun e2 => e2.1.1 = e.1.1) with
             | some w2 => [(e.1.1, w2)]
             | none => []) → False := by
          intro hmem
          cases hbw : blockWin sq (e :: r.takeWhile fun e2 => e2.1.1 = e.1.1) with
          | some w3 =>
            rw [hbw] at hmem
            rcases List.mem_singleton.mp hmem with h
            exact hk (congrArg Prod.fst h)
          | none =>
            rw [hbw] at hmem
            cases hmem
        rw [List.mem_append]
        constructor
        · intro h
          rcases h with h | h
          · exact absurd h hmatch
          · rcases hihdw.mp h with ⟨e1, he1, hrest⟩
            refine ⟨e1, ?_, hrest.1, hrest.2.1, hrest.2.2.1, ?_⟩
            · rw [← hsplit]
              exact List.mem_append_right _ he1
            · intro e2 he2 hk2 helig2
              rw [← hsplit] at he2
              rcases List.mem_append.mp he2 with h2 | h2
              . exact absurd (hk2.symm.trans (hkblk e2 h2)) hk
              . exact hrest.2.2.2 e2 h2 hk2 helig2
        · rintro ⟨e1, he1, hk1, helig, hval, hmax⟩
          right
          rw [← hsplit] at he1
          rcases List.mem_append.mp he1 with h1 | h1
          · exact absurd (hk1.symm.trans (hkblk e1 h1)) hk
          · refine hihdw.mpr ⟨e1, h1, hk1, helig, hval, ?_⟩
            intro e2 he2 hk2 helig2
            refine hmax e2 ?_ hk2 helig2
            rw [← hsplit]
            exact List.mem_append_right _ he2

/-- Fuel-indexed: the visible collapse of a sorted stream lists its keys
in strictly ascending order (so each key appears at most once). -/
theorem visibleSpec_keys_sorted_fuel {K V : Type} [LinearOrder K] (sq : Nat) :
    ∀ (n : Nat) (es : List (Entry K V)), es.length ≤ n →
      es.Pairwise (fun a b : Entry K V => entryLt a b) →
      (visibleSpec sq es).Pairwise (fun a b : K × V => a.1 < b.1) := by
  intro n
  induction n with
  | zero =>
    intro es hlen _
    rw [List.length_eq_zero.mp (Nat.le_zero.mp hlen), visibleSpec]
    exact List.Pairwise.nil
  | succ n ih =>
    intro es hlen hs
    cases es with
    | nil => rw [visibleSpec]; exact List.Pairwise.nil
    | cons e r =>
      have hgt := sorted_dropWhile_key_gt e r hs
      have hdws : (r.dropWhile fun e2 => e2.1.1 = e.1.1).Pairwise
          (fun a b : Entry K V => entryLt a b) :=
        List.Pairwise.sublist (List.dropWhile_sublist _)
          (List.pairwise_cons.mp hs).2
      have hdwlen : (r.dropWhile fun e2 => e2.1.1 = e.1.1).length ≤ n := by
        have := (List.dropWhile_suffix (l := r)
          (fun e2 : Entry K V => decide (e2.1.1 = e.1.1))).length_le
        simp only [List.length_cons] at hlen
        omega
      rw [visibleSpec]
      refine List.pairwise_append.mpr ⟨?_, ih _ hdwlen hdws, ?_⟩
      · cases blockWin sq (e :: r.takeWhile fun e2 => e2.1.1 = e.1.1) with
        | some w => exact List.pairwise_singleton _ _
        | none => exact List.Pairwise.nil
      · intro a ha b hb
        have hak : a.1 = e.1.1 := by
          cases hbw : blockWin sq (e :: r.takeWhile fun e2 => e2.1.1 = e.1.1) with
          | some w =>
            rw [hbw] at ha
            rw [List.mem_singleton.mp ha]
          | none =>
            rw [hbw] at ha
            cases ha
        have hbmem : (b.1, b.2) ∈ visibleSpec sq
            (r.dropWhile fun e2 => e2.1.1 = e.1.1) := hb
        rcases (visibleSpec_mem_char_fuel sq n _ hdwlen hdws b.1 b.2).mp hbmem with
          ⟨e1, he1, hk1, -⟩
        rw [hak, ← hk1]
        exact hgt e1 he1

/-- C4: over a cursor of sorted `((K, seqnum), Option V)` entries, forward
iteration of the seqnum iterator at visible seqnum `sq` yields exactly the
user keys whose largest-seqnum version among versions with seqnum at most
`sq` is a non-tombstone, each paired with that winning value, in strictly
ascending user-key order; keys with no eligible version or a tombstone
winner are omitted. -/
theorem seqnum_iter_forward_yields_visible_collapse {K V : Type} [LinearOrder K]
    (dk : K) (dv : V) (sq : Nat) (es : List (Entry K V))
    (hs : es.Pairwise (fun a b : Entry K V => entryLt a b)) :
    SeqnumIter.runNexts (es.length + 1)
        (SeqnumIter.new dk dv sq (VecIter.new es)) = visibleSpec sq es ∧
    (∀ (k : K) (w : V),
      (k, w) ∈ visibleSpec sq es ↔
        ∃ e1 ∈ es, e1.1.1 = k ∧ e1.1.2 ≤ sq ∧ e1.2 = some w ∧
          ∀ e2 ∈ es, e2.1.1 = k → e2.1.2 ≤ sq → e2.1.2 ≤ e1.1.2) ∧
    (visibleSpec sq es).Pairwise (fun a b : K × V => a.1 < b.1) := by
  refine ⟨?_, ?_, ?_⟩
  · exact runNexts_visible_fuel sq (es.length + 1) es [] (dk, dv) .AtStart
      (Or.inl rfl) (Nat.lt_succ_self _)
  · intro k w
    exact visibleSpec_mem_char_fuel sq es.length es (le_refl _) hs k w
  · exact visibleSpec_keys_sorted_fuel sq es.length es (le_refl _) hs

theorem seqnum_iter_forward_yields_visible_collapse_witness :
    ([((1, 1), some 10), ((1, 3), none), ((2, 2), some 20), ((3, 5), some 30)]
        : List (Entry Nat Nat)).Pairwise
        (fun a b : Entry Nat Nat => entryLt a b) ∧
    (SeqnumIter.runNexts 5 (SeqnumIter.new 0 0 3 (VecIter.new
        [((1, 1), some 10), ((1, 3), none), ((2, 2), some 20), ((3, 5), some 30)]))
      = visibleSpec 3
        [((1, 1), some 10), ((1, 3), none), ((2, 2), some 20), ((3, 5), some 30)] ∧
    (∀ (k w : Nat),
      (k, w) ∈ visibleSpec 3
          ([((1, 1), some 10), ((1, 3), none), ((2, 2), some 20), ((3, 5), some 30)]
            : List (Entry Nat Nat)) ↔
        ∃ e1 ∈ ([((1, 1), some 10), ((1, 3), none), ((2, 2), some 20),
            ((3, 5), some 30)] : List (Entry Nat Nat)),
          e1.1.1 = k ∧ e1.1.2 ≤ 3 ∧ e1.2 = some w ∧
          ∀ e2 ∈ ([((1, 1), some 10), ((1, 3), none), ((2, 2), some 20),
              ((3, 5), some 30)] : List (Entry Nat Nat)),
            e2.1.1 = k → e2.1.2 ≤ 3 → e2.1.2 ≤ e1.1.2) ∧
    (visibleSpec 3
        ([((1, 1), some 10), ((1, 3), none), ((2, 2), some 20), ((3, 5), some 30)]
          : List (Entry Nat Nat))).Pairwise
      (fun a b : Nat × Nat => a.1 < b.1)) :=
  ⟨by decide,
   seqnum_iter_forward_yields_visible_collapse 0 0 3
     [((1, 1), some 10), ((1, 3), none), ((2, 2), some 20), ((3, 5), some 30)]
     (by decide)⟩

/-- `seek_ge(k)` followed by `next()` yields the first collapsed pair of
the suffix of entries at internal key `(k, 0)` or beyond. -/
theorem seekGe_next_collapse {K V : Type} [LinearOrder K]
    (dk : K) (dv : V) (sq : Nat) (es : List (Entry K V)) (k : K) :
    (SeqnumIter.next (SeqnumIter.seekGe k
        (SeqnumIter.new dk dv sq (VecIter.new es)))).1
      = match collapseOne sq (es.dropWhile fun e => ikeyLt e.1 (k, 0)) with
        | some (kv, _) => some kv
        | none => none := by
  have hgood := pfGo_seek_collapse_fuel sq
    (es.dropWhile fun e => ikeyLt e.1 (k, 0)).length
    (es.dropWhile fun e => ikeyLt e.1 (k, 0)) (le_refl _)
    (dk, dv) ((es.takeWhile fun e => ikeyLt e.1 (k, 0)).reverse)
  cases hcol : collapseOne sq (es.dropWhile fun e => ikeyLt e.1 (k, 0)) with
  | none =>
    rcases hgood.2 hcol with ⟨buf2, acc2, heq⟩
    have hseek : SeqnumIter.seekGe k (SeqnumIter.new dk dv sq (VecIter.new es))
        = ⟨⟨acc2, []⟩, sq, .FwdEq, buf2⟩ := by
      rw [SeqnumIter.seekGe]
      simp only [SeqnumIter.new, seekGeInternal, VecIter.contents, VecIter.new,
        List.reverse_nil, List.nil_append, physicalForwards, heq]
      rfl
    rw [hseek, SeqnumIter.next]
    simp only [physicalForwards]
    rw [pfGo]
    rfl
  | some p =>
    rcases p with ⟨kv, rest⟩
    rcases hgood.1 kv rest hcol with ⟨acc2, heq⟩
    have hseek : SeqnumIter.seekGe k (SeqnumIter.new dk dv sq (VecIter.new es))
        = ⟨⟨acc2, rest⟩, sq, .FwdBehind, kv⟩ := by
      rw [SeqnumIter.seekGe]
      simp only [SeqnumIter.new, seekGeInternal, VecIter.contents, VecIter.new,
        List.reverse_nil, List.nil_append, physicalForwards, heq]
      rfl
    rw [hseek, SeqnumIter.next]

/-- `DbL.get` through the collapse of the sought suffix. -/
theorem get_collapse {K V : Type} [LinearOrder K] [DecidableEq V]
    [Inhabited K] [Inhabited V] (db : DbL K V) (k : K) :
    db.get k
      = match collapseOne db.visible_seqnum
            (db.entries.dropWhile fun e => ikeyLt e.1 (k, 0)) with
        | some (kv, _) => if kv.1 = k then some kv.2 else none
        | none => none := by
  rw [DbL.get]
  rw [seekGe_next_collapse default default db.visible_seqnum db.entries k]
  cases hcol : collapseOne db.visible_seqnum
      (db.entries.dropWhile fun e => ikeyLt e.1 (k, 0)) with
  | none => rfl
  | some p => rcases p with ⟨kv, rest⟩; rfl

theorem ikeyLt_trans {K : Type} [LinearOrder K] (a b c : K × Nat)
    (h1 : ikeyLt a b) (h2 : ikeyLt b c) : ikeyLt a c := by
  rcases h1 with h1 | ⟨h1, h1s⟩
  · rcases h2 with h2 | ⟨h2, -⟩
    · exact Or.inl (lt_trans h1 h2)
    · exact Or.inl (h2 ▸ h1)
  · rcases h2 with h2 | ⟨h2, h2s⟩
    · exact Or.inl (h1 ▸ h2)
    · exact Or.inr ⟨h1.trans h2, lt_trans h1s h2s⟩

theorem ikeyLt_resolve {K : Type} [LinearOrder K] (a b : K × Nat)
    (h : ¬ ikeyLt a b) (hne : a ≠ b) : ikeyLt b a := by
  rw [ikeyLt] at h
  push_neg at h
  rcases lt_trichotomy a.1 b.1 with hlt | heq | hgt
  · exact absurd h.1 (not_le.mpr hlt)
  · have hs : b.2 ≤ a.2 := h.2 heq
    rcases Nat.eq_or_lt_of_le hs with hs3 | hs3
    · exact absurd (Prod.ext heq hs3.symm) hne
    · exact Or.inr ⟨heq.symm, hs3⟩
  · exact Or.inl hgt

/-- Membership in the list after a sorted insertion. -/
theorem insertEntry_mem {K V : Type} [LinearOrder K] (e x : Entry K V)
    (l : List (Entry K V)) :
    x ∈ DbL.insertEntry e l ↔ x = e ∨ x ∈ l := by
  rw [DbL.insertEntry]
  constructor
  · intro h
    rcases List.mem_append.mp h with h1 | h1
    · rcases List.mem_append.mp h1 with h2 | h2
      · refine Or.inr ?_
        rw [← List.takeWhile_append_dropWhile (fun x => decide (ikeyLt x.1 e.1)) l]
        exact List.mem_append_left _ h2
      · exact Or.inl (List.mem_singleton.mp h2)
    · refine Or.inr ?_
      rw [← List.takeWhile_append_dropWhile (fun x => decide (ikeyLt x.1 e.1)) l]
      exact List.mem_append_right _ h1
  · intro h
    rcases h with rfl | h1
    · exact List.mem_append_left _ (List.mem_append_right _ (List.mem_singleton.mpr rfl))
    · rw [← List.takeWhile_append_dropWhile (fun x => decide (ikeyLt x.1 e.1)) l] at h1
      rcases List.mem_append.mp h1 with h2 | h2
      · exact List.mem_append_left _ (List.mem_append_left _ h2)
      · exact List.mem_append_right _ h2

/-- Sorted insertion of an entry with a fresh (strictly largest) seqnum
keeps the stream sorted. -/
theorem insertEntry_pairwise {K V : Type} [LinearOrder K] (e : Entry K V)
    (l : List (Entry K V)) (hl : l.Pairwise (fun a b : Entry K V => entryLt a b))
    (hfresh : ∀ x ∈ l, x.1.2 < e.1.2) :
    (DbL.insertEntry e l).Pairwise (fun a b : Entry K V => entryLt a b) := by
  have hl2 : (l.takeWhile (fun x => ikeyLt x.1 e.1)
      ++ l.dropWhile (fun x => ikeyLt x.1 e.1)).Pairwise
      (fun a b : Entry K V => entryLt a b) := by
    rw [List.takeWhile_append_dropWhile]
    exact hl
  rcases List.pairwise_append.mp hl2 with ⟨htw, hdw, hcross⟩
  have hdwlt : ∀ y ∈ l.dropWhile (fun x => ikeyLt x.1 e.1), ikeyLt e.1 y.1 := by
    cases hdrop : l.dropWhile (fun x => ikeyLt x.1 e.1) with
    | nil => intro y hy; cases hy
    | cons h0 t0 =>
      have hh0p := dropWhile_head_false _ l h0 t0 hdrop
      have hh0 : ¬ ikeyLt h0.1 e.1 := by simpa using hh0p
      have hh0mem : h0 ∈ l := by
        have : h0 ∈ l.dropWhile (fun x => ikeyLt x.1 e.1) := by
          rw [hdrop]; exact List.mem_cons_self _ _
        exact (List.dropWhile_sublist _).subset this
      have hh0ne : h0.1 ≠ e.1 := by
        intro hcontra
        have h2 : h0.1.2 = e.1.2 := congrArg Prod.snd hcontra
        exact absurd (hfresh h0 hh0mem) (by rw [h2]; exact lt_irrefl _)
      have hh0gt : ikeyLt e.1 h0.1 := ikeyLt_resolve h0.1 e.1 hh0 hh0ne
      intro y hy
      rw [hdrop] at hdw
      rcases List.mem_cons.mp hy with rfl | hy2
      · exact hh0gt
      · rcases List.pairwise_cons.mp hdw with ⟨hall, -⟩
        exact ikeyLt_trans e.1 h0.1 y.1 hh0gt (hall y hy2)
  rw [DbL.insertEntry, List.append_assoc]
  refine List.pairwise_append.mpr ⟨htw, ?_, ?_⟩
  · refine List.pairwise_append.mpr ⟨List.pairwise_singleton _ _, hdw, ?_⟩
    intro a ha b hb
    rw [List.mem_singleton.mp ha]
    exact hdwlt b hb
  · intro a ha b hb
    rcases List.mem_append.mp hb with hb1 | hb1
    · rw [List.mem_singleton.mp hb1]
      simpa using List.mem_takeWhile_imp ha
    · exact hcross a ha b hb1

/-- The common shape of `DbL.insert` and `DbL.delete` preserves
well-formedness. -/
theorem insert_shape_wf {K V : Type} [LinearOrder K] (db : DbL K V)
    (hwf : db.WF) (q : K) (val : Option V) :
    DbL.WF ⟨DbL.insertEntry ((q, db.next_seqnum + 1), val) db.entries,
      db.next_seqnum + 1, max db.visible_seqnum (db.next_seqnum + 1)⟩ := by
  rcases hwf with ⟨hsort, hbound, -⟩
  refine ⟨?_, ?_, ?_⟩
  · refine insertEntry_pairwise _ _ hsort ?_
    intro x hx
    exact Nat.lt_succ_of_le (hbound x hx)
  · intro e2 he2
    rcases (insertEntry_mem _ e2 _).mp he2 with rfl | h2
    · exact le_refl _
    · exact le_trans (hbound e2 h2) (Nat.le_succ _)
  · exact le_max_right _ _

/-- The common shape of `DbL.insert` and `DbL.delete` on a foreign key
preserves `HasLiveMax`. -/
theorem insert_shape_keeps {K V : Type} [LinearOrder K] (db : DbL K V)
    (q : K) (val : Option V) (k : K) (v : V) (hq : q ≠ k)
    (h : HasLiveMax k v db) :
    HasLiveMax k v ⟨DbL.insertEntry ((q, db.next_seqnum + 1), val) db.entries,
      db.next_seqnum + 1, max db.visible_seqnum (db.next_seqnum + 1)⟩ := by
  rcases h with ⟨s0, hmem, hvis, hmax⟩
  refine ⟨s0, (insertEntry_mem _ _ _).mpr (Or.inr hmem),
    le_trans hvis (le_max_left _ _), ?_⟩
  intro e2 he2 hk2
  rcases (insertEntry_mem _ e2 _).mp he2 with rfl | h2
  · exact absurd hk2 hq
  · exact hmax e2 h2 hk2

/-- `DbL.insert k v` makes `(k, v)` the live maximal version of `k`. -/
theorem insert_establishes {K V : Type} [LinearOrder K] (db : DbL K V)
    (hwf : db.WF) (k : K) (v : V) : HasLiveMax k v (db.insert k v) := by
  rcases hwf with ⟨-, hbound, -⟩
  refine ⟨db.next_seqnum + 1, ?_, le_max_right _ _, ?_⟩
  · exact (insertEntry_mem _ _ _).mpr (Or.inl rfl)
  · intro e2 he2 hk2
    rcases (insertEntry_mem _ e2 _).mp he2 with rfl | h2
    · exact le_refl _
    · exact le_trans (hbound e2 h2) (Nat.le_succ _)

/-- Applying any sequence of operations that avoid `k` preserves both
well-formedness and `k`'s live maximal version. -/
theorem applyOps_preserves {K V : Type} [LinearOrder K] (k : K) (v : V) :
    ∀ (ops : List (DbL.Op K V)) (db : DbL K V),
      (∀ op ∈ ops, DbL.Op.key op ≠ k) → db.WF → HasLiveMax k v db →
      (DbL.applyOps ops db).WF ∧ HasLiveMax k v (DbL.applyOps ops db) := by
  intro ops
  induction ops with
  | nil =>
    intro db _ hwf h
    exact ⟨hwf, h⟩
  | cons op ops ih =>
    intro db hops hwf h
    have hop : DbL.Op.key op ≠ k := hops op (List.mem_cons_self _ _)
    have hops2 : ∀ op2 ∈ ops, DbL.Op.key op2 ≠ k := by
      intro op2 hop2
      exact hops op2 (List.mem_cons_of_mem _ hop2)
    have hstep : (DbL.applyOp op db).WF ∧ HasLiveMax k v (DbL.applyOp op db) := by
      cases op with
      | ins q w =>
        rw [DbL.applyOp, DbL.insert]
        exact ⟨insert_shape_wf db hwf q (some w),
          insert_shape_keeps db q (some w) k v hop h⟩
      | del q =>
        rw [DbL.applyOp, DbL.delete]
        exact ⟨insert_shape_wf db hwf q none,
          insert_shape_keeps db q none k v hop h⟩
    rw [DbL.applyOps, List.foldl_cons]
    exact ih (DbL.applyOp op db) hops2 hstep.1 hstep.2

/-- If `k` has a live maximal version `v` in a well-formed state, `get k`
returns it. -/
theorem get_of_HasLiveMax {K V : Type} [LinearOrder K] [DecidableEq V]
    [Inhabited K] [Inhabited V] (db : DbL K V) (k : K) (v : V)
    (hwf : db.WF) (h : HasLiveMax k v db) : db.get k = some v := by
  rcases h with ⟨s0, hmem, hvis, hmax⟩
  rcases hwf with ⟨hsort, -, -⟩
  rw [get_collapse]
  have hpfalse : (fun e : Entry K V => decide (ikeyLt e.1 (k, 0)))
      ((k, s0), some v) = false := by
    simp [ikeyLt]
  have htv : ((k, s0), some v) ∈
      db.entries.dropWhile (fun e => ikeyLt e.1 (k, 0)) :=
    mem_dropWhile_of_false _ _ _ hmem hpfalse
  have hdwsort : (db.entries.dropWhile fun e => ikeyLt e.1 (k, 0)).Pairwise
      (fun a b : Entry K V => entryLt a b) :=
    List.Pairwise.sublist (List.dropWhile_sublist _) hsort
  cases hdw : db.entries.dropWhile (fun e => ikeyLt e.1 (k, 0)) with
  | nil =>
    rw [hdw] at htv
    cases htv
  | cons e0 t =>
    rw [hdw] at htv hdwsort
    have hp0 := dropWhile_head_false _ db.entries e0 t hdw
    have hp0n : ¬ ikeyLt e0.1 (k, 0) := by simpa using hp0
    have hkle : k ≤ e0.1.1 := by
      rcases le_or_lt k e0.1.1 with h1 | h1
      · exact h1
      · exact absurd (Or.inl h1) hp0n
    have he0k : e0.1.1 = k := by
      rcases List.mem_cons.mp htv with heq | hmem2
      · rw [← heq]
      · rcases (List.pairwise_cons.mp hdwsort).1 _ hmem2 with h2 | ⟨h2, -⟩
        . exact absurd h2 (not_lt.mpr hkle)
        . exact h2
    have hseq := block_seqnum_sorted e0 t hdwsort
    have hgt := sorted_dropWhile_key_gt e0 t hdwsort
    have htvblk : ((k, s0), some v) ∈
        e0 :: (t.takeWhile fun e2 => e2.1.1 = e0.1.1) := by
      have hsplitb : (e0 :: t.takeWhile fun e2 => e2.1.1 = e0.1.1) ++
          (t.dropWhile fun e2 => e2.1.1 = e0.1.1) = e0 :: t := by
        rw [List.cons_append, List.takeWhile_append_dropWhile]
      rw [← hsplitb] at htv
      rcases List.mem_append.mp htv with h1 | h1
      · exact h1
      · refine absurd (hgt _ h1) ?_
        rw [he0k]
        exact not_lt.mpr (le_refl k)
    have hwin : blockWin db.visible_seqnum
        (e0 :: t.takeWhile fun e2 => e2.1.1 = e0.1.1) = some v := by
      rw [blockWin_iff _ _ hseq]
      refine ⟨((k, s0), some v), htvblk, hvis, rfl, ?_⟩
      intro e2 he2 helig2
      have hk2 : e2.1.1 = k := by
        rw [← he0k]
        exact mem_block_key e0 t e2 he2
      have he2mem : e2 ∈ db.entries := by
        have h3 : e2 ∈ e0 :: t :=
          ((List.takeWhile_sublist _).cons₂ e0).subset he2
        rw [← hdw] at h3
        exact (List.dropWhile_sublist _).subset h3
      exact hmax e2 he2mem hk2
    rw [collapseOne, he0k]
    rw [he0k] at hwin
    rw [hwin]
    simp

/-- C3: on any well-formed engine state, `insert(k, v)` followed by
`get(k)`, with any intervening mutations that do not touch `k`, returns
`some v` -- whether `k`'s older versions live in the memtable or in SSTs
(the sorted live stream below the seqnum iterator abstracts both). -/
theorem insert_then_get_returns_value {K V : Type} [LinearOrder K] [DecidableEq V]
    [Inhabited K] [Inhabited V] (db : DbL K V) (k : K) (v : V)
    (ops : List (DbL.Op K V)) (hwf : db.WF)
    (hops : ∀ op ∈ ops, DbL.Op.key op ≠ k) :
    (DbL.applyOps ops (db.insert k v)).get k = some v := by
  have hwf1 : (db.insert k v).WF := by
    rw [DbL.insert]
    exact insert_shape_wf db hwf k (some v)
  have h1 : HasLiveMax k v (db.insert k v) := insert_establishes db hwf k v
  have h2 := applyOps_preserves k v ops (db.insert k v) hops hwf1 h1
  exact get_of_HasLiveMax _ k v h2.1 h2.2

theorem insert_then_get_returns_value_witness :
    (⟨[((1, 1), some 5), ((2, 2), some 7)], 2, 2⟩ : DbL Nat Nat).WF ∧
    (∀ op ∈ [DbL.Op.ins 2 9, DbL.Op.del 2], DbL.Op.key op ≠ (1 : Nat)) ∧
    (DbL.applyOps [DbL.Op.ins 2 9, DbL.Op.del 2]
        ((⟨[((1, 1), some 5), ((2, 2), some 7)], 2, 2⟩ : DbL Nat Nat).insert 1 42)).get 1
      = some 42 :=
  ⟨by decide, by decide,
   insert_then_get_returns_value
     (⟨[((1, 1), some 5), ((2, 2), some 7)], 2, 2⟩ : DbL Nat Nat) 1 42
     [DbL.Op.ins 2 9, DbL.Op.del 2] (by decide) (by decide)⟩

end SeqnumProofs

end BabyDb
